import Mathlib

/-!
Shallow embedding of the accessor-composition engine of `django-zana`.

The model follows `src/zana/django/canvas.py` (the module imported by the
test suite): the `Signature` value-object family (`Attr`, `Item`, `Slice`,
`Call`, `Func`, `Chain`), its construction and validation (`__new__`,
`_parse_params_`), the merge relation (`_can_merge_with`, `_merge`,
`_chain`), the combining operator (`__or__` / `__ror__`), `deconstruct`,
and the get/set/delete execution over a small heap of Python-like subject
objects.  `src/zana/django/_canvas.py` (the revision holding `Operation`)
is modelled separately in namespace `XCanvas`.

Domain choices of the embedding, documented once here:
* Python values appearing as signature arguments, option values, keys and
  subjects are modelled by the inductive `Val`; opaque hashable objects
  (`Mock` and the like) are represented by `Val.vobj` tokens, and mutable
  subject objects live in an explicit `Heap` addressed by `Val.vref`.
  Tuples are spine-encoded (`vnil`/`vcons`) so that `Val` is a plain
  (non-nested) inductive; `Val.vlist` builds a tuple from a Lean list.
* frozen dicts (`FrozenDict`) are association lists; Python `dict`
  equality (order-insensitive) is `Kw.eqb`, Python `d1 | d2` is
  `Kw.merge`.  Dict values nested inside `Val` (`vdnil`/`vdcons`) are
  kept in canonical duplicate-free form so structural equality matches
  Python's.
* constructor arguments follow the source's type annotations: leaf kinds
  take plain values, `Chain` takes signatures or sequences/iterators of
  signatures, exactly the three branches of `Chain._parse_params_`.
* the heap holds attribute objects (`SimpleNamespace` style), dicts and
  lists; there are no callable heap objects, so `Call`/`Func` evaluation
  is a `TypeError` in the model, and attribute lookup on non-namespace
  values fails as it does in Python for the user-chosen names involved.
-/

namespace Canvas

/-- Python values used as signature arguments, option values and subjects.
`vslc` is a native `slice(start, stop, step)` literal, `vobj` an opaque
hashable object token, `vref` a reference into the mutable heap.  A tuple
`(a, b)` is `vcons a (vcons b vnil)`; a frozen dict `{"k": v}` is
`vdcons "k" v vdnil` (entries in canonical duplicate-free order). -/
inductive Val where
  | vnone
  | vint (i : Int)
  | vstr (s : String)
  | vobj (n : Nat)
  | vref (a : Nat)
  | vslc (start stop step : Val)
  | vnil
  | vcons (hd tl : Val)
  | vdnil
  | vdcons (key : String) (value tail : Val)
  deriving DecidableEq, Repr

namespace Val

/-- Tuple value from a Lean list. -/
def vlist : List Val → Val
  | [] => .vnil
  | v :: rest => .vcons v (vlist rest)

/-- The elements of a tuple-shaped value (`none` when not a tuple). -/
def tupList : Val → Option (List Val)
  | .vnil => some []
  | .vcons v rest => (tupList rest).map (v :: ·)
  | _ => none

theorem tupList_vlist (l : List Val) : tupList (vlist l) = some l := by
  induction l with
  | nil => rfl
  | cons v rest ih => simp [vlist, tupList, ih]

end Val

/-- Keyword options of a signature: the contents of a `FrozenDict`. -/
abbrev Kw := List (String × Val)

namespace Kw

/-- Python dict lookup `kw[k]` / `kw.get(k)`: first entry with the key. -/
def get (kw : Kw) (k : String) : Option Val :=
  match kw with
  | [] => none
  | p :: rest => if p.1 = k then some p.2 else get rest k

theorem get_append (a b : Kw) (k : String) :
    get (a ++ b) k = ((get a k).orElse (fun _ => get b k)) := by
  induction a with
  | nil => simp [get, Option.orElse]
  | cons p rest ih =>
      by_cases hk : p.1 = k
      · simp [get, hk, Option.orElse]
      · simp only [List.cons_append, get, if_neg hk]
        exact ih

/-- Lookup after a key-based filter. -/
theorem get_filter_key (l : Kw) (f : String → Bool) (k : String) :
    get (l.filter (fun p => f p.1)) k = if f k then get l k else none := by
  induction l with
  | nil => simp [get]
  | cons p rest ih =>
      by_cases hf : f p.1
      · simp only [List.filter_cons, hf, if_pos]
        by_cases hk : p.1 = k
        · subst hk
          simp [get, hf]
        · simp only [get, if_neg hk]
          exact ih
      · simp only [List.filter_cons, hf, Bool.false_eq_true, if_neg, if_false]
        rw [ih]
        by_cases hk : p.1 = k
        · subst hk
          simp [get, hf]
        · simp [get, hk]

/-- Python dict union `a | b`: keys of `a` first (values overridden by
`b` where present), then the keys of `b` that are not in `a`. -/
def merge (a b : Kw) : Kw :=
  a.map (fun p => (p.1, (get b p.1).getD p.2)) ++
    b.filter (fun p => (get a p.1).isNone)

theorem get_map_override (a b : Kw) (k : String) :
    get (a.map (fun p => (p.1, (get b p.1).getD p.2))) k =
      (get a k).map (fun v => (get b k).getD v) := by
  induction a with
  | nil => simp [get]
  | cons p rest ih =>
      by_cases hk : p.1 = k
      · subst hk
        simp [get]
      · simp only [List.map_cons, get, if_neg hk]
        exact ih

/-- Lookup in a dict union: the right side wins where present. -/
theorem get_merge (a b : Kw) (k : String) :
    get (merge a b) k =
      match get b k with
      | some v => some v
      | none => get a k := by
  have hfilter :
      get (b.filter (fun p => (get a p.1).isNone)) k =
        if (get a k).isNone then get b k else none := by
    have := get_filter_key b (fun s => (get a s).isNone) k
    simpa using this
  simp only [merge, get_append, get_map_override, hfilter]
  cases hga : get a k with
  | none =>
      cases hgb : get b k with
      | none => simp [Option.orElse]
      | some w => simp [Option.orElse]
  | some v =>
      cases hgb : get b k with
      | none => simp [Option.orElse]
      | some w => simp [Option.orElse]

/-- Union with the empty dict on the left is the identity. -/
theorem merge_nil_left (b : Kw) : merge [] b = b := by
  simp only [merge, List.map_nil, List.nil_append]
  induction b with
  | nil => rfl
  | cons p rest ih => simp [List.filter, get, ih]

/-- Python dict equality `a == b`: the same key-to-value mapping,
insertion order irrelevant. -/
def eqb (a b : Kw) : Bool :=
  a.all (fun p => get b p.1 == get a p.1) &&
    b.all (fun p => get a p.1 == get b p.1)

theorem exists_mem_of_get_eq_some {kw : Kw} {k : String} {v : Val}
    (h : get kw k = some v) : ∃ p ∈ kw, p.1 = k := by
  induction kw with
  | nil => simp [get] at h
  | cons p rest ih =>
      by_cases hk : p.1 = k
      · exact ⟨p, by simp, hk⟩
      · simp only [get, if_neg hk] at h
        obtain ⟨q, hq, hq1⟩ := ih h
        exact ⟨q, by simp [hq], hq1⟩

/-- `eqb` is exactly pointwise equality of lookups. -/
theorem eqb_iff_get {a b : Kw} :
    eqb a b = true ↔ ∀ k, get a k = get b k := by
  constructor
  · intro h k
    simp only [eqb, Bool.and_eq_true, List.all_eq_true, beq_iff_eq] at h
    rcases h with ⟨ha, hb⟩
    cases hga : get a k with
    | some v =>
        obtain ⟨p, hp, hp1⟩ := exists_mem_of_get_eq_some hga
        subst hp1
        rw [ha p hp, hga]
    | none =>
        cases hgb : get b k with
        | none => rfl
        | some w =>
            obtain ⟨p, hp, hp1⟩ := exists_mem_of_get_eq_some hgb
            subst hp1
            rw [hb p hp] at hga
            rw [hga] at hgb
            simp at hgb
  · intro h
    simp only [eqb, Bool.and_eq_true, List.all_eq_true, beq_iff_eq]
    exact ⟨fun p _ => (h p.1).symm, fun p _ => h p.1⟩

theorem eqb_refl (a : Kw) : eqb a a = true :=
  eqb_iff_get.mpr (fun _ => rfl)

theorem eqb_symm {a b : Kw} (h : eqb a b = true) : eqb b a = true :=
  eqb_iff_get.mpr (fun k => (eqb_iff_get.mp h k).symm)

theorem eqb_trans {a b c : Kw} (h₁ : eqb a b = true) (h₂ : eqb b c = true) :
    eqb a c = true :=
  eqb_iff_get.mpr (fun k => (eqb_iff_get.mp h₁ k).trans (eqb_iff_get.mp h₂ k))

/-- Union of two dict-equal dicts has the lookups of the left one. -/
theorem get_merge_self {a b : Kw} (h : eqb a b = true) (k : String) :
    get (merge a b) k = get a k := by
  rw [get_merge, ← eqb_iff_get.mp h k]
  cases get a k <;> simp

end Kw

/-- The signature kinds of `canvas.py` (the class of the node). -/
inductive Kind where
  | ATTR | ITEM | SLICE | CALL | FUNC | CHAIN
  deriving DecidableEq, Repr

/-- A constructed signature value: the class together with `__args__` and
`__kwargs__`.  `Chain.__args__` is a tuple of signatures, all other kinds
store plain values. -/
inductive Sig where
  | attr  (args : List Val) (kw : Kw)
  | item  (args : List Val) (kw : Kw)
  | slice (args : List Val) (kw : Kw)
  | call  (args : List Val) (kw : Kw)
  | func  (args : List Val) (kw : Kw)
  | chain (links : List Sig) (kw : Kw)

namespace Sig

def kindOf : Sig → Kind
  | .attr _ _ => .ATTR
  | .item _ _ => .ITEM
  | .slice _ _ => .SLICE
  | .call _ _ => .CALL
  | .func _ _ => .FUNC
  | .chain _ _ => .CHAIN

def kwOf : Sig → Kw
  | .attr _ k | .item _ k | .slice _ k | .call _ k | .func _ k | .chain _ k => k

/-- Plain-value arguments (empty for a `Chain`). -/
def valArgs : Sig → List Val
  | .attr a _ | .item a _ | .slice a _ | .call a _ | .func a _ => a
  | .chain _ _ => []

/-- Links of a `Chain` (empty for leaves). -/
def linksOf : Sig → List Sig
  | .chain l _ => l
  | _ => []

end Sig

mutual

/-- Python `==` on signatures (`Signature.__eq__`): same class, equal
`__args__` tuples and dict-equal `__kwargs__`.  Chain links are compared
elementwise with the same equality. -/
def Sig.eqb : Sig → Sig → Bool
  | .attr a k, .attr b k2 => a == b && Kw.eqb k k2
  | .item a k, .item b k2 => a == b && Kw.eqb k k2
  | .slice a k, .slice b k2 => a == b && Kw.eqb k k2
  | .call a k, .call b k2 => a == b && Kw.eqb k k2
  | .func a k, .func b k2 => a == b && Kw.eqb k k2
  | .chain l k, .chain m k2 => Sig.eqbL l m && Kw.eqb k k2
  | _, _ => false

/-- Elementwise `Sig.eqb` on link lists. -/
def Sig.eqbL : List Sig → List Sig → Bool
  | [], [] => true
  | a :: as, b :: bs => Sig.eqb a b && Sig.eqbL as bs
  | _, _ => false

end

mutual

theorem Sig.eqb_self (s : Sig) : Sig.eqb s s = true := by
  cases s with
  | attr a k => simp [Sig.eqb, Kw.eqb_refl]
  | item a k => simp [Sig.eqb, Kw.eqb_refl]
  | slice a k => simp [Sig.eqb, Kw.eqb_refl]
  | call a k => simp [Sig.eqb, Kw.eqb_refl]
  | func a k => simp [Sig.eqb, Kw.eqb_refl]
  | chain l k => simp [Sig.eqb, Kw.eqb_refl, Sig.eqbL_self l]

theorem Sig.eqbL_self (l : List Sig) : Sig.eqbL l l = true := by
  cases l with
  | nil => rfl
  | cons a as => simp [Sig.eqbL, Sig.eqb_self a, Sig.eqbL_self as]

end

/-! Merge relation (`Signature._can_merge_`, `_can_merge_with`, `_merge`,
`_chain`, `_chain_reducer_`). -/

/-- Class-level `_can_merge_`: `Call` and `Func` are declared with
`merge=False`; every other kind (including `Chain`) inherits `True`. -/
def Kind.allowsMerging : Kind → Bool
  | .CALL => false
  | .FUNC => false
  | _ => true

/-- `Signature._can_merge_with`: class allows merging, same class, and
dict-equal options. -/
def canMergeB (x y : Sig) : Bool :=
  x.kindOf.allowsMerging && x.kindOf == y.kindOf && Kw.eqb y.kwOf x.kwOf

/-- `Signature._merge` via `_new_`: concatenated args, dict-union options
(only meaningful under `canMergeB`, where the two dicts are equal). -/
def Sig.mergeSig : Sig → Sig → Sig
  | .attr a k, .attr b k2 => .attr (a ++ b) (Kw.merge k k2)
  | .item a k, .item b k2 => .item (a ++ b) (Kw.merge k k2)
  | .slice a k, .slice b k2 => .slice (a ++ b) (Kw.merge k k2)
  | .call a k, .call b k2 => .call (a ++ b) (Kw.merge k k2)
  | .func a k, .func b k2 => .func (a ++ b) (Kw.merge k k2)
  | .chain a k, .chain b k2 => .chain (a ++ b) (Kw.merge k k2)
  | x, _ => x

/-- `Signature._chain`: a merged singleton or the unmerged pair. -/
def chainPair (x y : Sig) : List Sig :=
  if canMergeB x y then [x.mergeSig y] else [x, y]

/-- `_chain_reducer_(a, b)`: `a[:-1] + a[-1]._chain(b)` when `a` is
non-empty, else `(b,)`. -/
def chainStep : List Sig → Sig → List Sig
  | [], b => [b]
  | [a], b => chainPair a b
  | a :: rest, b => a :: chainStep rest b

/-- `reduce(_chain_reducer_, links, acc)`. -/
def chainRed (acc : List Sig) (l : List Sig) : List Sig :=
  l.foldl chainStep acc

/-! Construction (`Signature.__new__` and the `_parse_params_` methods). -/

/-- Construction- and traversal-time errors.  The first group models the
native Python exceptions (`TypeError`, `ValueError`, `AttributeError`,
`KeyError`, `IndexError`, generic `LookupError`, `NotImplementedError`);
the second the `SignatureError` taxonomy raised by the engine.
`unsupportedMutation` models the error raised when compiling `set` /
`delete` for a chain whose tap invariant fails (a `TypeError` with the
message `chain must be tapped at the end` in the source; the spec calls
it `UnsupportedMutationError`). -/
inductive Err where
  | typeErr | valueErr | attrErr | keyErr | idxErr | lookupErr | notImplErr
  | attrSigErr | keySigErr | idxSigErr | lookupSigErr
  | unsupportedMutation
  deriving DecidableEq, Repr

/-- Python's `str.split(".")` on the character list: always non-empty,
pieces contain no dot. -/
def splitDot : List Char → List (List Char)
  | [] => [[]]
  | c :: cs =>
    if c = '.' then [] :: splitDot cs
    else
      match splitDot cs with
      | [] => [[c]]
      | h :: t => (c :: h) :: t

/-- `"a.b".split(".")` as Lean strings. -/
def pySplit (s : String) : List String :=
  (splitDot s.data).map String.mk

/-- One argument of `Attr._parse_params_`: dotted strings are split,
other values are kept whole. -/
def attrSplit1 : Val → List Val
  | .vstr s => (pySplit s).map .vstr
  | v => [v]

/-- The flattening generator of `Attr._parse_params_`. -/
def attrParse (args : List Val) : List Val :=
  (args.map attrSplit1).flatten

/-- Python `tuple(obj)` on the values that can appear as slice specs:
tuples are copied, strings iterate their characters, dicts their keys,
anything non-iterable raises `TypeError` (in particular integers). -/
def pyTuple : Val → Except Err Val
  | .vnil => .ok .vnil
  | .vcons h t =>
      match pyTuple t with
      | .ok t2 => .ok (.vcons h t2)
      | .error e => .error e
  | .vstr s => .ok (.vlist (s.data.map (fun c => .vstr (String.mk [c]))))
  | .vdnil => .ok .vnil
  | .vdcons k _ t =>
      match pyTuple t with
      | .ok t2 => .ok (.vcons (.vstr k) t2)
      | .error e => .error e
  | _ => .error .typeErr

/-- `Slice._slice_tuple`: a native slice becomes its
`(start, stop, step)` triple, anything else goes through `tuple(obj)`. -/
def sliceTuple : Val → Except Err Val
  | .vslc a b c => .ok (.vlist [a, b, c])
  | v => pyTuple v

/-- A constructor argument.  Leaf kinds receive plain values; `Chain`
receives signatures or sequences/iterators of signatures (the three
branches of its `_parse_params_` generator). -/
inductive Inp where
  | v (x : Val)
  | s (x : Sig)
  | seq (l : List Sig)

/-- Class-level `_min_args_` (`max_args` is unbounded for every kind). -/
def minArgs : Kind → Nat
  | .ATTR => 1
  | .ITEM => 1
  | .SLICE => 1
  | .CALL => 0
  | .FUNC => 1
  | .CHAIN => 0

/-- Class-level `_default_kwargs_`: only `Chain` declares defaults
(`args=()`, `kwargs=FrozenDict()`, `tap=-1`). -/
def defaultChainKw : Kw :=
  [("args", .vnil), ("kwargs", .vdnil), ("tap", .vint (-1))]

def defaultKwargs : Kind → Kw
  | .CHAIN => defaultChainKw
  | _ => []

/-- Class-level `_default_args_`: empty for every kind in `canvas.py`. -/
def defaultArgs (_ : Kind) : List Val := []

/-- Leaf kinds accept plain values only (per the source's annotations);
a non-value argument is outside the modelled domain. -/
def asVals (inputs : List Inp) : Except Err (List Val) :=
  inputs.mapM fun i =>
    match i with
    | .v x => .ok x
    | _ => .error .typeErr

/-- One step of the splicing generator of `Chain._parse_params_`: a chain
argument with options dict-equal to the new chain's options contributes
its links, any other signature contributes itself, and a sequence or
iterator contributes its elements (which are not themselves spliced). -/
def chainFlat1 (K : Kw) : Inp → Except Err (List Sig)
  | .s (.chain l k) => .ok (if Kw.eqb k K then l else [.chain l k])
  | .s x => .ok [x]
  | .seq l => .ok l
  | .v _ => .error .typeErr

/-- The splicing generator of `Chain._parse_params_` on a signature
argument: a chain with dict-equal options contributes its links, any
other signature contributes itself. -/
def chainFlatS (K : Kw) : Sig → List Sig
  | .chain l k => if Kw.eqb k K then l else [.chain l k]
  | x => [x]

/-- `Chain(*sigs, **kw)` specialised to signature arguments, which never
fails: options are `defaults | kw`, links are the spliced inputs reduced
left-to-right by `_chain_reducer_`. -/
def chainNewS (inputs : List Sig) (kw : Kw) : Sig :=
  let K := Kw.merge defaultChainKw kw
  .chain (chainRed [] ((inputs.map (chainFlatS K)).flatten)) K

/-- `cls(*args, **kwargs)` = `Signature.__new__`: arity check on the raw
arguments, then the class's `_parse_params_`, then `_new_`.  No kind in
`canvas.py` declares `_required_kwargs_`, so that check never fires. -/
def newSig (k : Kind) (inputs : List Inp) (kw : Kw) : Except Err Sig :=
  if inputs.length < minArgs k then .error .typeErr
  else
    match k with
    | .ATTR =>
        match asVals inputs with
        | .ok vs => .ok (.attr (attrParse vs) (Kw.merge (defaultKwargs .ATTR) kw))
        | .error e => .error e
    | .ITEM =>
        match asVals inputs with
        | .ok vs => .ok (.item vs (Kw.merge (defaultKwargs .ITEM) kw))
        | .error e => .error e
    | .SLICE =>
        match asVals inputs with
        | .ok vs =>
            match vs.mapM sliceTuple with
            | .ok ts => .ok (.slice ts (Kw.merge (defaultKwargs .SLICE) kw))
            | .error e => .error e
        | .error e => .error e
    | .CALL =>
        match asVals inputs with
        | .ok vs => .ok (.call vs (Kw.merge (defaultKwargs .CALL) kw))
        | .error e => .error e
    | .FUNC =>
        match asVals inputs with
        | .ok vs => .ok (.func vs (Kw.merge (defaultKwargs .FUNC) kw))
        | .error e => .error e
    | .CHAIN =>
        let K := Kw.merge defaultChainKw kw
        match inputs.mapM (chainFlat1 K) with
        | .ok parts => .ok (.chain (chainRed [] parts.flatten) K)
        | .error e => .error e

/-! Deconstruction (`Signature.deconstruct`) and reconstruction. -/

/-- The suffix-trimming loop of `deconstruct`: the first index `i` with
`args[i:] == d_args[i:]` truncates the args to `args[:i]`.  Dead for
every kind of `canvas.py` (no kind declares default args) but modelled
faithfully. -/
def trimFrom (args dArgs : List Val) (i : Nat) : List Val :=
  if h : i < dArgs.length then
    if args.drop i = dArgs.drop i then args.take i
    else trimFrom args dArgs (i + 1)
  else args
termination_by dArgs.length - i

/-- The `if d_args and len(d_args) == len(args)` guard around the loop. -/
def deconTrimArgs (args dArgs : List Val) : List Val :=
  if dArgs ≠ [] ∧ dArgs.length = args.length then trimFrom args dArgs 0
  else args

/-- The option-trimming loop of `deconstruct`: drop every entry whose key
is a default key with a `==`-equal default value. -/
def deconKwTrim (kw dK : Kw) : Kw :=
  kw.filter fun p => !(Kw.get dK p.1 == Kw.get kw p.1)

/-- `Signature.deconstruct`: the class path (modelled as the `Kind`), the
positional args with the trailing defaults trimmed, and the options with
default-equal entries removed.  The args are wrapped as constructor
inputs so the triple can be fed back to `newSig`. -/
def Sig.deconstruct : Sig → Kind × List Inp × Kw
  | .attr a k => (.ATTR, (deconTrimArgs a (defaultArgs .ATTR)).map .v, deconKwTrim k (defaultKwargs .ATTR))
  | .item a k => (.ITEM, (deconTrimArgs a (defaultArgs .ITEM)).map .v, deconKwTrim k (defaultKwargs .ITEM))
  | .slice a k => (.SLICE, (deconTrimArgs a (defaultArgs .SLICE)).map .v, deconKwTrim k (defaultKwargs .SLICE))
  | .call a k => (.CALL, (deconTrimArgs a (defaultArgs .CALL)).map .v, deconKwTrim k (defaultKwargs .CALL))
  | .func a k => (.FUNC, (deconTrimArgs a (defaultArgs .FUNC)).map .v, deconKwTrim k (defaultKwargs .FUNC))
  | .chain l k => (.CHAIN, l.map .s, deconKwTrim k (defaultKwargs .CHAIN))

/-- Reconstruction: construct a signature of the deconstructed class from
the deconstructed args and options (the round-trip of the spec). -/
def reconstructSig (s : Sig) : Except Err Sig :=
  newSig s.deconstruct.1 s.deconstruct.2.1 s.deconstruct.2.2

/-! The combining operator (`Signature.__or__` / `__ror__`). -/

/-- `x | y` for two signatures: `_chain` gives either a merged singleton
(returned directly) or the pair, which is fed to `Chain(x, y)`; a
resulting one-link chain collapses to its link. -/
def orSig (x y : Sig) : Sig :=
  if canMergeB x y then x.mergeSig y
  else
    match chainNewS [x, y] [] with
    | .chain [l] _ => l
    | c => c

/-- `x | seq` for a sequence/iterator of signatures: `Chain(x, *seq)`,
collapsing a one-link result. -/
def orSeq (x : Sig) (l : List Sig) : Sig :=
  match chainNewS (x :: l) [] with
  | .chain [o] _ => o
  | c => c

/-- `seq | y` (`__ror__`): `Chain(*seq, y)`, collapsing a one-link
result. -/
def rorSeq (l : List Sig) (y : Sig) : Sig :=
  match chainNewS (l ++ [y]) [] with
  | .chain [o] _ => o
  | c => c

/-! Lemmas about the merge relation and the chain reduction. -/

/-- No two adjacent links are mergeable. -/
def noAdjMergeB : List Sig → Bool
  | [] => true
  | [_] => true
  | a :: b :: rest => !canMergeB a b && noAdjMergeB (b :: rest)

theorem noAdjMergeB_cons_cons {a b : Sig} {rest : List Sig} :
    noAdjMergeB (a :: b :: rest) = true ↔
      canMergeB a b = false ∧ noAdjMergeB (b :: rest) = true := by
  simp [noAdjMergeB]

theorem mergeSig_kind {a b : Sig} (h : a.kindOf = b.kindOf) :
    (a.mergeSig b).kindOf = a.kindOf := by
  cases a <;> cases b <;> simp_all [Sig.kindOf, Sig.mergeSig]

theorem mergeSig_kw {a b : Sig} (h : a.kindOf = b.kindOf) :
    (a.mergeSig b).kwOf = Kw.merge a.kwOf b.kwOf := by
  cases a <;> cases b <;> simp_all [Sig.kindOf, Sig.kwOf, Sig.mergeSig]

theorem kw_merge_eqb_left {a b : Kw} (h : Kw.eqb a b = true) :
    Kw.eqb (Kw.merge a b) a = true :=
  Kw.eqb_iff_get.mpr (fun k => Kw.get_merge_self h k)

theorem canMergeB_kind {a b : Sig} (h : canMergeB a b = true) :
    a.kindOf = b.kindOf := by
  simp only [canMergeB, Bool.and_eq_true, beq_iff_eq] at h
  exact h.1.2

theorem canMergeB_kw {a b : Sig} (h : canMergeB a b = true) :
    Kw.eqb b.kwOf a.kwOf = true := by
  simp only [canMergeB, Bool.and_eq_true] at h
  exact h.2

/-- Merging `b` into `a` does not create new merge partners: anything
unmergeable with `a` stays unmergeable with `a.mergeSig b`. -/
theorem canMergeB_mergeSig {x a b : Sig} (hab : canMergeB a b = true)
    (hxa : canMergeB x a = false) : canMergeB x (a.mergeSig b) = false := by
  have hkind := canMergeB_kind hab
  have hkw := canMergeB_kw hab
  have hmkind : (a.mergeSig b).kindOf = a.kindOf := mergeSig_kind hkind
  have hmkw : (a.mergeSig b).kwOf = Kw.merge a.kwOf b.kwOf := mergeSig_kw hkind
  by_contra hne
  have hx : canMergeB x (a.mergeSig b) = true := by
    cases hcm : canMergeB x (a.mergeSig b) with
    | true => rfl
    | false => exact absurd hcm hne
  simp only [canMergeB, Bool.and_eq_true, beq_iff_eq] at hx
  have hxa2 : canMergeB x a = true := by
    simp only [canMergeB, Bool.and_eq_true, beq_iff_eq]
    refine ⟨⟨hx.1.1, ?_⟩, ?_⟩
    · rw [hx.1.2, hmkind]
    · have h1 : Kw.eqb (a.mergeSig b).kwOf x.kwOf = true := hx.2
      have h2 : Kw.eqb (a.mergeSig b).kwOf a.kwOf = true := by
        rw [hmkw]
        exact kw_merge_eqb_left (Kw.eqb_symm hkw)
      exact Kw.eqb_trans (Kw.eqb_symm h2) h1
  rw [hxa2] at hxa
  simp at hxa

/-- `_chain_reducer_` appends when the accumulated last link does not
merge with the new one. -/
theorem chainStep_append {acc : List Sig} {a b : Sig}
    (hlast : acc.getLast? = some a) (h : canMergeB a b = false) :
    chainStep acc b = acc ++ [b] := by
  induction acc with
  | nil => simp at hlast
  | cons x rest ih =>
      cases rest with
      | nil =>
          simp only [List.getLast?_singleton, Option.some.injEq] at hlast
          subst hlast
          simp [chainStep, chainPair, h]
      | cons y rest2 =>
          have hlast2 : (y :: rest2).getLast? = some a := by
            rwa [List.getLast?_cons_cons] at hlast
          simp only [chainStep, List.cons_append]
          rw [ih hlast2]
          simp

/-- The head of a reduction step: either the old head survives, or the
accumulator was a mergeable singleton and the head is the merged node. -/
theorem chainStep_head (r : Sig) (rest : List Sig) (b : Sig) :
    ∃ h t, chainStep (r :: rest) b = h :: t ∧
      (h = r ∨ (rest = [] ∧ canMergeB r b = true ∧ h = r.mergeSig b)) := by
  cases rest with
  | nil =>
      by_cases hm : canMergeB r b = true
      · exact ⟨r.mergeSig b, [], by simp [chainStep, chainPair, hm], Or.inr ⟨rfl, hm, rfl⟩⟩
      · refine ⟨r, [b], ?_, Or.inl rfl⟩
        simp only [chainStep, chainPair]
        rw [if_neg hm]
  | cons y rest2 =>
      exact ⟨r, chainStep (y :: rest2) b, rfl, Or.inl rfl⟩

/-- A reduction step preserves the no-adjacent-mergeable invariant. -/
theorem noAdj_chainStep (acc : List Sig) (b : Sig)
    (h : noAdjMergeB acc = true) : noAdjMergeB (chainStep acc b) = true := by
  induction acc with
  | nil => simp [chainStep, noAdjMergeB]
  | cons a rest ih =>
      cases rest with
      | nil =>
          simp only [chainStep, chainPair]
          by_cases hm : canMergeB a b = true
          · simp [hm, noAdjMergeB]
          · rw [if_neg hm]
            simp only [noAdjMergeB, Bool.and_eq_true, Bool.not_eq_true']
            constructor
            · simpa using hm
            · simp [noAdjMergeB]
      | cons y rest2 =>
          have hhd : canMergeB a y = false := (noAdjMergeB_cons_cons.mp h).1
          have htl : noAdjMergeB (y :: rest2) = true := (noAdjMergeB_cons_cons.mp h).2
          have hstep := ih htl
          obtain ⟨hd, tl, heq, hcase⟩ := chainStep_head y rest2 b
          simp only [chainStep, heq]
          rw [show a :: hd :: tl = a :: (hd :: tl) from rfl]
          refine noAdjMergeB_cons_cons.mpr ⟨?_, heq ▸ hstep⟩
          rcases hcase with hr | ⟨_, hm, hmerge⟩
          · exact hr ▸ hhd
          · exact hmerge ▸ canMergeB_mergeSig hm hhd

/-- The link list of a reduced chain never has two adjacent mergeable
links. -/
theorem noAdj_chainRed (l : List Sig) :
    ∀ acc, noAdjMergeB acc = true → noAdjMergeB (chainRed acc l) = true := by
  induction l with
  | nil => intro acc h; exact h
  | cons b bs ih =>
      intro acc h
      exact ih (chainStep acc b) (noAdj_chainStep acc b h)

/-- `noAdjMergeB` is `List.Chain'` of non-mergeability. -/
theorem noAdjMergeB_iff_chain' (l : List Sig) :
    noAdjMergeB l = true ↔ List.Chain' (fun a b => canMergeB a b = false) l := by
  induction l with
  | nil => simp [noAdjMergeB]
  | cons a rest ih =>
      cases rest with
      | nil => simp [noAdjMergeB]
      | cons b rest2 =>
          rw [noAdjMergeB_cons_cons, List.chain'_cons, ← ih]

/-- Re-reducing an already reduced list is the identity. -/
theorem chainRed_of_noAdj (rest : List Sig) :
    ∀ acc, noAdjMergeB (acc ++ rest) = true → chainRed acc rest = acc ++ rest := by
  induction rest with
  | nil => intro acc _; simp [chainRed]
  | cons b bs ih =>
      intro acc h
      have hstep : chainStep acc b = acc ++ [b] := by
        cases hacc : acc.getLast? with
        | none =>
            have : acc = [] := List.getLast?_eq_none_iff.mp hacc
            subst this
            rfl
        | some a =>
            refine chainStep_append hacc ?_
            have hch := (noAdjMergeB_iff_chain' _).mp h
            rw [List.chain'_append] at hch
            have hjunction := hch.2.2 a hacc b (by simp)
            exact hjunction
      have h2 : noAdjMergeB ((acc ++ [b]) ++ bs) = true := by
        simpa [List.append_assoc] using h
      calc chainRed acc (b :: bs) = chainRed (chainStep acc b) bs := rfl
        _ = chainRed (acc ++ [b]) bs := by rw [hstep]
        _ = (acc ++ [b]) ++ bs := ih (acc ++ [b]) h2
        _ = acc ++ b :: bs := by simp [List.append_assoc]

/-! Lemmas about `str.split(".")` and the per-kind parsers. -/

theorem splitDot_ne_nil (l : List Char) : splitDot l ≠ [] := by
  induction l with
  | nil => simp [splitDot]
  | cons c cs ih =>
      by_cases hc : c = '.'
      · simp [splitDot, hc]
      · simp only [splitDot, if_neg hc]
        cases hs : splitDot cs with
        | nil => simp
        | cons h t => simp

theorem not_mem_dot_of_mem_splitDot (l : List Char) :
    ∀ p ∈ splitDot l, '.' ∉ p := by
  induction l with
  | nil =>
      intro p hp
      simp [splitDot] at hp
      simp [hp]
  | cons c cs ih =>
      intro p hp
      rcases hcc : splitDot cs with _ | ⟨h0, t⟩
      · exact absurd hcc (splitDot_ne_nil cs)
      by_cases hc : c = '.'
      · simp only [splitDot] at hp
        rw [if_pos hc] at hp
        rcases List.mem_cons.mp hp with rfl | hp
        · simp
        · exact ih p hp
      · simp only [splitDot] at hp
        rw [if_neg hc, hcc] at hp
        rcases List.mem_cons.mp hp with rfl | hp
        · intro hmem
          rcases List.mem_cons.mp hmem with hd | hd
          · exact hc hd.symm
          · exact ih h0 (hcc ▸ List.mem_cons_self h0 t) hd
        · exact ih p (hcc ▸ List.mem_cons_of_mem h0 hp)

theorem splitDot_of_not_mem {l : List Char} (h : '.' ∉ l) :
    splitDot l = [l] := by
  induction l with
  | nil => rfl
  | cons c cs ih =>
      have hc : c ≠ '.' := fun hc => h (hc ▸ List.mem_cons_self c cs)
      have hcs : '.' ∉ cs := fun hm => h (List.mem_cons_of_mem c hm)
      simp only [splitDot, if_neg (fun hcc => hc hcc)]
      rw [ih hcs]

theorem pySplit_of_dotFree {s : String} (h : '.' ∉ s.data) :
    pySplit s = [s] := by
  simp [pySplit, splitDot_of_not_mem h]

theorem mem_pySplit_dotFree {s p : String} (hp : p ∈ pySplit s) :
    '.' ∉ p.data := by
  simp only [pySplit, List.mem_map] at hp
  obtain ⟨q, hq, rfl⟩ := hp
  exact not_mem_dot_of_mem_splitDot s.data q hq

theorem pySplit_ne_nil (s : String) : pySplit s ≠ [] := by
  simp only [pySplit, ne_eq, List.map_eq_nil_iff]
  exact splitDot_ne_nil s.data

/-- Attr argument values after construction contain no dot. -/
def dotFreeV : Val → Bool
  | .vstr s => decide ('.' ∉ s.data)
  | _ => true

theorem attrSplit1_ne_nil (v : Val) : attrSplit1 v ≠ [] := by
  cases v <;> simp [attrSplit1]
  case vstr s => exact pySplit_ne_nil s

theorem attrSplit1_of_dotFree {v : Val} (h : dotFreeV v = true) :
    attrSplit1 v = [v] := by
  cases v <;> simp [attrSplit1]
  case vstr s =>
      simp only [dotFreeV, decide_eq_true_eq] at h
      simp [pySplit_of_dotFree h]

theorem mem_attrParse_dotFree {args : List Val} :
    ∀ v ∈ attrParse args, dotFreeV v = true := by
  intro v hv
  simp only [attrParse, List.mem_flatten, List.mem_map] at hv
  obtain ⟨piece, ⟨a, _, rfl⟩, hvp⟩ := hv
  cases a with
  | vstr s =>
      simp only [attrSplit1, List.mem_map] at hvp
      obtain ⟨q, hq, rfl⟩ := hvp
      simp [dotFreeV, mem_pySplit_dotFree hq]
  | vnone => simp [attrSplit1] at hvp; simp [hvp, dotFreeV]
  | vint i => simp [attrSplit1] at hvp; simp [hvp, dotFreeV]
  | vobj n => simp [attrSplit1] at hvp; simp [hvp, dotFreeV]
  | vref a => simp [attrSplit1] at hvp; simp [hvp, dotFreeV]
  | vslc a b c => simp [attrSplit1] at hvp; simp [hvp, dotFreeV]
  | vnil => simp [attrSplit1] at hvp; simp [hvp, dotFreeV]
  | vcons h t => simp [attrSplit1] at hvp; simp [hvp, dotFreeV]
  | vdnil => simp [attrSplit1] at hvp; simp [hvp, dotFreeV]
  | vdcons k x t => simp [attrSplit1] at hvp; simp [hvp, dotFreeV]

theorem attrParse_of_dotFree {l : List Val} (h : ∀ v ∈ l, dotFreeV v = true) :
    attrParse l = l := by
  induction l with
  | nil => rfl
  | cons v rest ih =>
      simp only [attrParse, List.map_cons, List.flatten_cons]
      rw [attrSplit1_of_dotFree (h v (by simp))]
      have := ih (fun w hw => h w (by simp [hw]))
      simp only [attrParse] at this
      simp [this]

theorem attrParse_idem (args : List Val) :
    attrParse (attrParse args) = attrParse args :=
  attrParse_of_dotFree mem_attrParse_dotFree

theorem attrParse_ne_nil {args : List Val} (h : args ≠ []) :
    attrParse args ≠ [] := by
  cases args with
  | nil => exact absurd rfl h
  | cons v rest =>
      intro hcontra
      simp only [attrParse, List.map_cons, List.flatten_cons] at hcontra
      rcases List.append_eq_nil.mp hcontra with ⟨h1, _⟩
      exact attrSplit1_ne_nil v h1

/-! Lemmas about slice-spec normalization. -/

/-- Tuple-shaped values (the stored form of slice specs). -/
def isSpine : Val → Bool
  | .vnil => true
  | .vcons _ t => isSpine t
  | _ => false

theorem isSpine_vlist (l : List Val) : isSpine (Val.vlist l) = true := by
  induction l with
  | nil => rfl
  | cons v rest ih => simpa [Val.vlist, isSpine] using ih

theorem pyTuple_spine {v w : Val} (h : pyTuple v = .ok w) :
    isSpine w = true := by
  induction v generalizing w with
  | vnil => simp only [pyTuple, Except.ok.injEq] at h; subst h; rfl
  | vcons hd tl ihh iht =>
      simp only [pyTuple] at h
      cases htl : pyTuple tl with
      | ok t2 =>
          rw [htl] at h
          simp only [Except.ok.injEq] at h
          subst h
          simpa [isSpine] using iht htl
      | error e => rw [htl] at h; simp at h
  | vstr s =>
      simp only [pyTuple, Except.ok.injEq] at h
      subst h
      exact isSpine_vlist _
  | vdnil => simp only [pyTuple, Except.ok.injEq] at h; subst h; rfl
  | vdcons k x tl ihx iht =>
      simp only [pyTuple] at h
      cases htl : pyTuple tl with
      | ok t2 =>
          rw [htl] at h
          simp only [Except.ok.injEq] at h
          subst h
          simpa [isSpine] using iht htl
      | error e => rw [htl] at h; simp at h
  | vnone => simp [pyTuple] at h
  | vint i => simp [pyTuple] at h
  | vobj n => simp [pyTuple] at h
  | vref a => simp [pyTuple] at h
  | vslc a b c => simp [pyTuple] at h

theorem sliceTuple_spine {v w : Val} (h : sliceTuple v = .ok w) :
    isSpine w = true := by
  cases v with
  | vslc a b c =>
      simp only [sliceTuple, Except.ok.injEq] at h
      subst h
      exact isSpine_vlist _
  | vnone => exact pyTuple_spine h
  | vint i => exact pyTuple_spine h
  | vstr s => exact pyTuple_spine h
  | vobj n => exact pyTuple_spine h
  | vref a => exact pyTuple_spine h
  | vnil => exact pyTuple_spine h
  | vcons hd tl => exact pyTuple_spine h
  | vdnil => exact pyTuple_spine h
  | vdcons k x tl => exact pyTuple_spine h

theorem pyTuple_of_spine {v : Val} (h : isSpine v = true) :
    pyTuple v = .ok v := by
  induction v with
  | vnil => rfl
  | vcons hd tl ihh iht =>
      simp only [isSpine] at h
      simp [pyTuple, iht h]
  | vnone => simp [isSpine] at h
  | vint i => simp [isSpine] at h
  | vstr s => simp [isSpine] at h
  | vobj n => simp [isSpine] at h
  | vref a => simp [isSpine] at h
  | vslc a b c => simp [isSpine] at h
  | vdnil => simp [isSpine] at h
  | vdcons k x tl ihx iht => simp [isSpine] at h

theorem sliceTuple_of_spine {v : Val} (h : isSpine v = true) :
    sliceTuple v = .ok v := by
  cases v with
  | vslc a b c => simp [isSpine] at h
  | vnil => exact pyTuple_of_spine h
  | vcons hd tl => exact pyTuple_of_spine h
  | vnone => simp [isSpine] at h
  | vint i => simp [isSpine] at h
  | vstr s => simp [isSpine] at h
  | vobj n => simp [isSpine] at h
  | vref a => simp [isSpine] at h
  | vdnil => simp [isSpine] at h
  | vdcons k x tl => simp [isSpine] at h

/-! Lemmas about deconstruction and generic `mapM` facts. -/

theorem Kw.get_isSome_of_mem {kw : Kw} {p : String × Val} (hp : p ∈ kw) :
    (Kw.get kw p.1).isSome := by
  induction kw with
  | nil => simp at hp
  | cons q rest ih =>
      by_cases hq : q.1 = p.1
      · simp [Kw.get, hq]
      · rcases List.mem_cons.mp hp with rfl | hp2
        · exact absurd rfl hq
        · simp only [Kw.get, if_neg hq]
          exact ih hp2

theorem deconKwTrim_nil (kw : Kw) : deconKwTrim kw [] = kw := by
  apply List.filter_eq_self.mpr
  intro p hp
  have hsome := Kw.get_isSome_of_mem hp
  cases hg : Kw.get kw p.1 with
  | none => rw [hg] at hsome; simp at hsome
  | some v =>
      have h0 : Kw.get ([] : Kw) p.1 = none := rfl
      simp [h0, hg]

theorem deconTrimArgs_nil (a : List Val) : deconTrimArgs a [] = a := by
  simp [deconTrimArgs]

theorem getMergeDecon (dK K : Kw)
    (h : ∀ k, (Kw.get dK k).isSome → (Kw.get K k).isSome) (k : String) :
    Kw.get (Kw.merge dK (deconKwTrim K dK)) k = Kw.get K k := by
  rw [Kw.get_merge]
  have hfilter : Kw.get (deconKwTrim K dK) k =
      if (!(Kw.get dK k == Kw.get K k)) then Kw.get K k else none :=
    Kw.get_filter_key K (fun s => !(Kw.get dK s == Kw.get K s)) k
  rw [hfilter]
  by_cases hbe : (Kw.get dK k == Kw.get K k) = true
  · have heq : Kw.get dK k = Kw.get K k := beq_iff_eq.mp hbe
    simp [hbe, heq]
  · have hbe2 : (Kw.get dK k == Kw.get K k) = false := by
      cases hx : (Kw.get dK k == Kw.get K k) with
      | true => exact absurd hx hbe
      | false => rfl
    simp only [hbe2, Bool.not_false, if_pos]
    cases hK : Kw.get K k with
    | some v => simp
    | none =>
        simp only []
        cases hdK : Kw.get dK k with
        | none => rfl
        | some w =>
            have := h k (by simp [hdK])
            rw [hK] at this
            simp at this

theorem mapM_ok_of_forall_id {α} {f : α → Except Err α} {l : List α}
    (h : ∀ v ∈ l, f v = .ok v) : l.mapM f = .ok l := by
  induction l with
  | nil => rfl
  | cons v rest ih =>
      rw [List.mapM_cons, h v (by simp), ih (fun w hw => h w (by simp [hw]))]
      rfl

theorem mapM_ok_length {α β} {f : α → Except Err β} :
    ∀ {l : List α} {l2 : List β}, l.mapM f = .ok l2 → l2.length = l.length := by
  intro l
  induction l with
  | nil =>
      intro l2 h
      simp only [List.mapM_nil] at h
      cases h
      rfl
  | cons v rest ih =>
      intro l2 h
      rw [List.mapM_cons] at h
      cases hv : f v with
      | error e => rw [hv] at h; simp [Bind.bind, Except.bind] at h
      | ok w =>
          rw [hv] at h
          cases hr : rest.mapM f with
          | error e => rw [hr] at h; simp [Bind.bind, Except.bind] at h
          | ok ws =>
              rw [hr] at h
              simp only [Bind.bind, Except.bind, pure, Except.pure,
                Except.ok.injEq] at h
              subst h
              simp [ih hr]

theorem mapM_ok_mem {α β} {f : α → Except Err β} :
    ∀ {l : List α} {l2 : List β}, l.mapM f = .ok l2 →
      ∀ w ∈ l2, ∃ v ∈ l, f v = .ok w := by
  intro l
  induction l with
  | nil =>
      intro l2 h w hw
      simp only [List.mapM_nil] at h
      cases h
      simp at hw
  | cons v rest ih =>
      intro l2 h w hw
      rw [List.mapM_cons] at h
      cases hv : f v with
      | error e => rw [hv] at h; simp [Bind.bind, Except.bind] at h
      | ok x =>
          rw [hv] at h
          cases hr : rest.mapM f with
          | error e => rw [hr] at h; simp [Bind.bind, Except.bind] at h
          | ok xs =>
              rw [hr] at h
              simp only [Bind.bind, Except.bind, pure, Except.pure,
                Except.ok.injEq] at h
              subst h
              rcases List.mem_cons.mp hw with rfl | hw2
              · exact ⟨v, by simp, hv⟩
              · obtain ⟨u, hu, hfu⟩ := ih hr w hw2
                exact ⟨u, by simp [hu], hfu⟩

theorem mapM_map_out {α β γ} {g : α → β} {f : β → Except Err γ}
    {l : List α} {out : α → γ} (h : ∀ a ∈ l, f (g a) = .ok (out a)) :
    (l.map g).mapM f = .ok (l.map out) := by
  induction l with
  | nil => rfl
  | cons a rest ih =>
      rw [List.map_cons, List.mapM_cons, h a (by simp),
        ih (fun b hb => h b (by simp [hb]))]
      rfl

theorem flatten_map_singleton {α} (l : List α) :
    (l.map fun a => [a]).flatten = l := by
  induction l with
  | nil => rfl
  | cons a rest ih => simp [ih]

theorem asVals_map_v (l : List Val) : asVals (l.map .v) = .ok l := by
  have h := @mapM_map_out Val Inp Val Inp.v
    (fun i => match i with | .v x => .ok x | _ => .error Err.typeErr)
    l id (fun a _ => rfl)
  simpa [asVals] using h

/-! Round-trip (claim C1). -/

/-- A chain link that is itself a chain with options dict-equal to the
containing chain's options: the one stored shape whose reconstruction is
spliced away and so breaks the round trip. -/
def isChainWithKwB (s : Sig) (K : Kw) : Bool :=
  match s with
  | .chain _ k2 => Kw.eqb k2 K
  | _ => false

/-- Side condition of the amended round-trip law: the signature does not
store a same-options chain link (only constructible by passing such a
chain inside a sequence argument, which the build does not splice). -/
def chainLinksOkB : Sig → Bool
  | .chain l k => l.all fun s => !(isChainWithKwB s k)
  | _ => true

theorem kw_defaults_present (dK kw : Kw) (k : String)
    (h : (Kw.get dK k).isSome) : (Kw.get (Kw.merge dK kw) k).isSome := by
  rw [Kw.get_merge]
  cases hkw : Kw.get kw k with
  | some v => simp
  | none => simpa using h

theorem recon_attr {A : List Val} {K0 : Kw} (hne : A ≠ [])
    (hdf : ∀ v ∈ A, dotFreeV v = true) :
    reconstructSig (.attr A K0) = .ok (.attr A K0) := by
  simp only [reconstructSig, Sig.deconstruct, defaultArgs, defaultKwargs,
    deconTrimArgs_nil, deconKwTrim_nil, newSig]
  rw [if_neg (by simpa [minArgs, List.length_pos_iff_ne_nil] using hne)]
  simp only [asVals_map_v]
  rw [attrParse_of_dotFree hdf, Kw.merge_nil_left]

theorem recon_item {A : List Val} {K0 : Kw} (hne : A ≠ []) :
    reconstructSig (.item A K0) = .ok (.item A K0) := by
  simp only [reconstructSig, Sig.deconstruct, defaultArgs, defaultKwargs,
    deconTrimArgs_nil, deconKwTrim_nil, newSig]
  rw [if_neg (by simpa [minArgs, List.length_pos_iff_ne_nil] using hne)]
  simp only [asVals_map_v, Kw.merge_nil_left]

theorem recon_slice {A : List Val} {K0 : Kw} (hne : A ≠ [])
    (hsp : ∀ v ∈ A, isSpine v = true) :
    reconstructSig (.slice A K0) = .ok (.slice A K0) := by
  simp only [reconstructSig, Sig.deconstruct, defaultArgs, defaultKwargs,
    deconTrimArgs_nil, deconKwTrim_nil, newSig]
  rw [if_neg (by simpa [minArgs, List.length_pos_iff_ne_nil] using hne)]
  simp only [asVals_map_v]
  simp only [mapM_ok_of_forall_id (fun v hv => sliceTuple_of_spine (hsp v hv))]
  rw [Kw.merge_nil_left]

theorem recon_call {A : List Val} {K0 : Kw} :
    reconstructSig (.call A K0) = .ok (.call A K0) := by
  simp only [reconstructSig, Sig.deconstruct, defaultArgs, defaultKwargs,
    deconTrimArgs_nil, deconKwTrim_nil, newSig]
  rw [if_neg (by simp [minArgs])]
  simp only [asVals_map_v, Kw.merge_nil_left]

theorem recon_func {A : List Val} {K0 : Kw} (hne : A ≠ []) :
    reconstructSig (.func A K0) = .ok (.func A K0) := by
  simp only [reconstructSig, Sig.deconstruct, defaultArgs, defaultKwargs,
    deconTrimArgs_nil, deconKwTrim_nil, newSig]
  rw [if_neg (by simpa [minArgs, List.length_pos_iff_ne_nil] using hne)]
  simp only [asVals_map_v, Kw.merge_nil_left]

theorem recon_chain {L : List Sig} {K : Kw}
    (hdef : ∀ k, (Kw.get defaultChainKw k).isSome → (Kw.get K k).isSome)
    (hlinks : ∀ l ∈ L, isChainWithKwB l K = false)
    (hnoadj : noAdjMergeB L = true) :
    ∃ K2, reconstructSig (.chain L K) = .ok (.chain L K2) ∧
      Kw.eqb K2 K = true := by
  set K2 := Kw.merge defaultChainKw (deconKwTrim K defaultChainKw) with hK2def
  have hK2 : ∀ k, Kw.get K2 k = Kw.get K k := getMergeDecon _ _ hdef
  have hK2eqb : Kw.eqb K2 K = true := Kw.eqb_iff_get.mpr hK2
  refine ⟨K2, ?_, hK2eqb⟩
  simp only [reconstructSig, Sig.deconstruct, defaultKwargs, newSig]
  rw [if_neg (by simp [minArgs])]
  have hflat : (L.map Inp.s).mapM (chainFlat1 K2) = .ok (L.map fun l => [l]) := by
    apply mapM_map_out
    intro l hl
    cases l with
    | chain l2 k2 =>
        have hnotkw : Kw.eqb k2 K = false := by
          have := hlinks _ hl
          simpa [isChainWithKwB] using this
        have hnotkw2 : Kw.eqb k2 K2 = false := by
          cases hx : Kw.eqb k2 K2 with
          | false => rfl
          | true =>
              have : Kw.eqb k2 K = true := Kw.eqb_trans hx hK2eqb
              rw [this] at hnotkw
              simp at hnotkw
        simp [chainFlat1, hnotkw2]
    | attr a kk => rfl
    | item a kk => rfl
    | slice a kk => rfl
    | call a kk => rfl
    | func a kk => rfl
  simp only [hflat, flatten_map_singleton]
  rw [chainRed_of_noAdj L [] (by simpa using hnoadj)]
  simp [hK2def]

/-- CLAIM C1 (corrected, amended form).  For every signature produced by
a constructor call, provided no chain stores a link that is itself a
chain with options equal to the containing chain's options, `deconstruct`
followed by reconstruction of the same class with the deconstructed
positional args and options yields a Python-equal signature.  This covers
every kind (Attr, Item, Slice, Call, Func, Chain), including the trimming
of trailing default args and of option entries equal to the class
defaults. -/
theorem c1_roundtrip_amended (k : Kind) (inputs : List Inp) (kw : Kw) (s : Sig)
    (hc : newSig k inputs kw = .ok s) (hok : chainLinksOkB s = true) :
    ∃ s2, reconstructSig s = .ok s2 ∧ Sig.eqb s2 s = true := by
  cases k with
  | ATTR =>
      simp only [newSig] at hc
      by_cases hlen : inputs.length < minArgs .ATTR
      · rw [if_pos hlen] at hc; cases hc
      · rw [if_neg hlen] at hc
        cases hvs : asVals inputs with
        | error e => rw [hvs] at hc; cases hc
        | ok vs =>
            rw [hvs] at hc
            simp only [Except.ok.injEq] at hc
            subst hc
            have hvsne : vs ≠ [] := by
              intro hnil
              have hlen2 : vs.length = inputs.length := mapM_ok_length hvs
              rw [hnil] at hlen2
              simp only [List.length_nil] at hlen2
              simp only [minArgs, Nat.not_lt] at hlen
              omega
            refine ⟨_, ?_, Sig.eqb_self _⟩
            exact recon_attr (attrParse_ne_nil hvsne) mem_attrParse_dotFree
  | ITEM =>
      simp only [newSig] at hc
      by_cases hlen : inputs.length < minArgs .ITEM
      · rw [if_pos hlen] at hc; cases hc
      · rw [if_neg hlen] at hc
        cases hvs : asVals inputs with
        | error e => rw [hvs] at hc; cases hc
        | ok vs =>
            rw [hvs] at hc
            simp only [Except.ok.injEq] at hc
            subst hc
            have hvsne : vs ≠ [] := by
              intro hnil
              have hlen2 : vs.length = inputs.length := mapM_ok_length hvs
              rw [hnil] at hlen2
              simp only [List.length_nil] at hlen2
              simp only [minArgs, Nat.not_lt] at hlen
              omega
            exact ⟨_, recon_item hvsne, Sig.eqb_self _⟩
  | SLICE =>
      simp only [newSig] at hc
      by_cases hlen : inputs.length < minArgs .SLICE
      · rw [if_pos hlen] at hc; cases hc
      · rw [if_neg hlen] at hc
        cases hvs : asVals inputs with
        | error e => rw [hvs] at hc; cases hc
        | ok vs =>
            rw [hvs] at hc
            simp only [] at hc
            cases hts : vs.mapM sliceTuple with
            | error e => rw [hts] at hc; cases hc
            | ok ts =>
                rw [hts] at hc
                simp only [Except.ok.injEq] at hc
                subst hc
                have htsne : ts ≠ [] := by
                  intro hnil
                  have h1 : ts.length = vs.length := mapM_ok_length hts
                  have h2 : vs.length = inputs.length := mapM_ok_length hvs
                  rw [hnil] at h1
                  simp only [List.length_nil] at h1
                  simp only [minArgs, Nat.not_lt] at hlen
                  omega
                have hsp : ∀ v ∈ ts, isSpine v = true := by
                  intro v hv
                  obtain ⟨u, _, hu⟩ := mapM_ok_mem hts v hv
                  exact sliceTuple_spine hu
                exact ⟨_, recon_slice htsne hsp, Sig.eqb_self _⟩
  | CALL =>
      simp only [newSig] at hc
      by_cases hlen : inputs.length < minArgs .CALL
      · rw [if_pos hlen] at hc; cases hc
      · rw [if_neg hlen] at hc
        cases hvs : asVals inputs with
        | error e => rw [hvs] at hc; cases hc
        | ok vs =>
            rw [hvs] at hc
            simp only [Except.ok.injEq] at hc
            subst hc
            exact ⟨_, recon_call, Sig.eqb_self _⟩
  | FUNC =>
      simp only [newSig] at hc
      by_cases hlen : inputs.length < minArgs .FUNC
      · rw [if_pos hlen] at hc; cases hc
      · rw [if_neg hlen] at hc
        cases hvs : asVals inputs with
        | error e => rw [hvs] at hc; cases hc
        | ok vs =>
            rw [hvs] at hc
            simp only [Except.ok.injEq] at hc
            subst hc
            have hvsne : vs ≠ [] := by
              intro hnil
              have hlen2 : vs.length = inputs.length := mapM_ok_length hvs
              rw [hnil] at hlen2
              simp only [List.length_nil] at hlen2
              simp only [minArgs, Nat.not_lt] at hlen
              omega
            exact ⟨_, recon_func hvsne, Sig.eqb_self _⟩
  | CHAIN =>
      simp only [newSig] at hc
      rw [if_neg (by simp [minArgs])] at hc
      cases hparts : inputs.mapM (chainFlat1 (Kw.merge defaultChainKw kw)) with
      | error e => rw [hparts] at hc; cases hc
      | ok parts =>
          rw [hparts] at hc
          simp only [Except.ok.injEq] at hc
          subst hc
          have hdef : ∀ k, (Kw.get defaultChainKw k).isSome →
              (Kw.get (Kw.merge defaultChainKw kw) k).isSome :=
            fun k hk => kw_defaults_present _ _ k hk
          have hlinks : ∀ l ∈ chainRed [] parts.flatten,
              isChainWithKwB l (Kw.merge defaultChainKw kw) = false := by
            intro l hl
            simp only [chainLinksOkB, List.all_eq_true] at hok
            have := hok l hl
            simpa using this
          have hnoadj : noAdjMergeB (chainRed [] parts.flatten) = true :=
            noAdj_chainRed parts.flatten [] rfl
          obtain ⟨K2, hrec, hK2⟩ := recon_chain hdef hlinks hnoadj
          refine ⟨_, hrec, ?_⟩
          simp [Sig.eqb, Sig.eqbL_self, hK2]

/-- The claim as frozen is false: `Chain(Attr("a"), [Chain(Attr("b"))])`
is constructible (the inner same-options chain rides inside a sequence
argument, so it is not spliced and is stored as a link), but its
reconstruction splices that link and merges, producing a different
signature. -/
def c1badInner : Sig := .chain [.attr [.vstr "b"] []] defaultChainKw

def c1bad : Sig := .chain [.attr [.vstr "a"] [], c1badInner] defaultChainKw

/-- CLAIM C1, counterexample to the frozen statement: a constructible
chain whose round trip is not equal to itself. -/
theorem c1_counterexample :
    newSig .CHAIN [.s (.attr [.vstr "b"] [])] [] = .ok c1badInner ∧
    newSig .CHAIN [.s (.attr [.vstr "a"] []), .seq [c1badInner]] [] = .ok c1bad ∧
    reconstructSig c1bad = .ok (.chain [.attr [.vstr "a", .vstr "b"] []] defaultChainKw) ∧
    Sig.eqb (.chain [.attr [.vstr "a", .vstr "b"] []] defaultChainKw) c1bad = false := by
  refine ⟨rfl, rfl, rfl, by decide⟩

/-- Witness for the amended round-trip: a dotted `Attr` with a default
option reconstructs to an equal signature. -/
theorem c1_roundtrip_witness :
    ∃ s2, reconstructSig (.attr [.vstr "x", .vstr "y"] [("default", .vint 7)]) = .ok s2 ∧
      Sig.eqb s2 (.attr [.vstr "x", .vstr "y"] [("default", .vint 7)]) = true :=
  c1_roundtrip_amended .ATTR [.v (.vstr "x.y")] [("default", .vint 7)]
    (.attr [.vstr "x", .vstr "y"] [("default", .vint 7)]) rfl rfl

/-! The combining operator: claims C3 and C10, and the chain build
postcondition, claim C4. -/

def isChainB : Sig → Bool
  | .chain _ _ => true
  | _ => false

theorem chainFlatS_nonchain {x : Sig} (hx : isChainB x = false) (K : Kw) :
    chainFlatS K x = [x] := by
  cases x <;> simp_all [isChainB, chainFlatS]

theorem mergeSig_valArgs {x y : Sig} (h : x.kindOf = y.kindOf) :
    (x.mergeSig y).valArgs = x.valArgs ++ y.valArgs := by
  cases x <;> cases y <;> simp_all [Sig.kindOf, Sig.mergeSig, Sig.valArgs]

theorem isChainB_mergeSig {x y : Sig} (h : x.kindOf = y.kindOf) :
    isChainB (x.mergeSig y) = isChainB x := by
  cases x <;> cases y <;> simp_all [Sig.kindOf, Sig.mergeSig, isChainB]

theorem chainRed_pair (x y : Sig) : chainRed [] [x, y] = chainPair x y := rfl

theorem chainNewS_pair {x y : Sig} (hx : isChainB x = false)
    (hy : isChainB y = false) :
    chainNewS [x, y] [] =
      .chain (chainPair x y) (Kw.merge defaultChainKw []) := by
  simp only [chainNewS, List.map_cons, List.map_nil, List.flatten_cons,
    List.flatten_nil, List.append_nil, chainFlatS_nonchain hx,
    chainFlatS_nonchain hy]
  rfl

/-- CLAIM C3 (corrected, amended form): for leaf (non-Chain) signatures
`x` and `y`, the combining operator merges exactly when the two have the
same kind, the kind allows merging, and the options are dict-equal
(`canMergeB`, stated definitionally in the first conjunct); a merge
yields the fused node of `x`'s kind with concatenated args and `x`'s
options; otherwise the result is a `Chain` of exactly the two links.
The restriction to leaves is forced by the counterexample: a chain
operand is spliced by the `Chain` constructor, after which its links may
fuse with the other operand. -/
theorem c3_or_case_analysis (x y : Sig) (hx : isChainB x = false)
    (hy : isChainB y = false) :
    (canMergeB x y =
      (x.kindOf.allowsMerging && (x.kindOf == y.kindOf) && Kw.eqb y.kwOf x.kwOf)) ∧
    (canMergeB x y = true →
      orSig x y = x.mergeSig y ∧
      (x.mergeSig y).kindOf = x.kindOf ∧
      (x.mergeSig y).valArgs = x.valArgs ++ y.valArgs ∧
      Kw.eqb (x.mergeSig y).kwOf x.kwOf = true) ∧
    (canMergeB x y = false →
      orSig x y = .chain [x, y] (Kw.merge defaultChainKw [])) ∧
    (isChainB (orSig x y) = false ↔ canMergeB x y = true) := by
  have hmerge : canMergeB x y = true →
      orSig x y = x.mergeSig y ∧
      (x.mergeSig y).kindOf = x.kindOf ∧
      (x.mergeSig y).valArgs = x.valArgs ++ y.valArgs ∧
      Kw.eqb (x.mergeSig y).kwOf x.kwOf = true := by
    intro h
    have hkind := canMergeB_kind h
    refine ⟨by simp [orSig, h], mergeSig_kind hkind, mergeSig_valArgs hkind, ?_⟩
    rw [mergeSig_kw hkind]
    exact kw_merge_eqb_left (Kw.eqb_symm (canMergeB_kw h))
  have hnomerge : canMergeB x y = false →
      orSig x y = .chain [x, y] (Kw.merge defaultChainKw []) := by
    intro h
    simp only [orSig, h, Bool.false_eq_true, if_neg, if_false]
    rw [chainNewS_pair hx hy]
    simp only [chainPair, h, Bool.false_eq_true, if_neg, if_false]
  refine ⟨rfl, hmerge, hnomerge, ?_⟩
  constructor
  · intro hresult
    cases hcm : canMergeB x y with
    | true => rfl
    | false =>
        rw [(hnomerge hcm)] at hresult
        simp [isChainB] at hresult
  · intro hcm
    rw [(hmerge hcm).1, isChainB_mergeSig (canMergeB_kind hcm)]
    exact hx

/-- CLAIM C3, counterexample to the frozen statement: with
`x = Chain(Attr("p"))` (default chain options) and `y = Attr("q")`, the
options differ, yet `x | y` is the fused leaf `Attr("p", "q")`, not a
Chain of the two links: the chain operand is spliced and its link merges
with `y`. -/
theorem c3_counterexample :
    Kw.eqb (Sig.chain [.attr [.vstr "p"] []] defaultChainKw).kwOf
        (Sig.attr [.vstr "q"] []).kwOf = false ∧
    orSig (.chain [.attr [.vstr "p"] []] defaultChainKw) (.attr [.vstr "q"] []) =
      .attr [.vstr "p", .vstr "q"] [] ∧
    isChainB (.attr [.vstr "p", .vstr "q"] ([] : Kw)) = false :=
  ⟨by decide, rfl, rfl⟩

/-- Witness for the amended C3: `Attr("foo") | Attr("baz", default=1)`
has differing options and produces the two-link chain. -/
theorem c3_or_case_analysis_witness :
    orSig (.attr [.vstr "foo"] []) (.attr [.vstr "baz"] [("default", .vint 1)]) =
      .chain [.attr [.vstr "foo"] [], .attr [.vstr "baz"] [("default", .vint 1)]]
        (Kw.merge defaultChainKw []) :=
  ((c3_or_case_analysis (.attr [.vstr "foo"] [])
    (.attr [.vstr "baz"] [("default", .vint 1)]) rfl rfl).2.2.1) (by decide)

/-- CLAIM C4 (confirmed): constructing a Chain splices same-options
chain arguments inline and merge-reduces left-to-right, so
`Chain(Chain(a,b), c) = Chain(a,b,c)` (same options throughout), and in
every constructed Chain no two adjacent links are mergeable.  The link
sequence of the model is an immutable value, never mutated after
construction. -/
theorem c4_chain_build :
    (∀ (a b c : Sig) (kw : Kw),
      chainNewS [chainNewS [a, b] kw, c] kw = chainNewS [a, b, c] kw ∧
      Sig.eqb (chainNewS [chainNewS [a, b] kw, c] kw) (chainNewS [a, b, c] kw) = true) ∧
    (∀ (inputs : List Inp) (kw : Kw) (s : Sig),
      newSig .CHAIN inputs kw = .ok s → noAdjMergeB s.linksOf = true) := by
  constructor
  · intro a b c kw
    have hmain : chainNewS [chainNewS [a, b] kw, c] kw = chainNewS [a, b, c] kw := by
      simp only [chainNewS, List.map_cons, List.map_nil, List.flatten_cons,
        List.flatten_nil, List.append_nil]
      congr 1
      set K := Kw.merge defaultChainKw kw with hK
      set fa := chainFlatS K a with hfa
      set fb := chainFlatS K b with hfb
      set fc := chainFlatS K c with hfc
      have hsplice : chainFlatS K (Sig.chain (chainRed [] (fa ++ fb)) K) =
          chainRed [] (fa ++ fb) := by
        simp [chainFlatS, Kw.eqb_refl]
      rw [hsplice]
      have h1 : chainRed [] (chainRed [] (fa ++ fb) ++ fc) =
          chainRed (chainRed [] (chainRed [] (fa ++ fb))) fc := by
        simp [chainRed, List.foldl_append]
      have h2 : chainRed [] (chainRed [] (fa ++ fb)) = chainRed [] (fa ++ fb) := by
        have hnoadj : noAdjMergeB (chainRed [] (fa ++ fb)) = true :=
          noAdj_chainRed (fa ++ fb) [] rfl
        have := chainRed_of_noAdj (chainRed [] (fa ++ fb)) [] (by simpa using hnoadj)
        simpa using this
      have h3 : chainRed [] (fa ++ (fb ++ fc)) =
          chainRed (chainRed [] (fa ++ fb)) fc := by
        rw [show fa ++ (fb ++ fc) = (fa ++ fb) ++ fc by simp [List.append_assoc]]
        simp [chainRed, List.foldl_append]
      rw [h1, h2, h3]
    exact ⟨hmain, by rw [hmain]; exact Sig.eqb_self _⟩
  · intro inputs kw s hc
    simp only [newSig] at hc
    rw [if_neg (by simp [minArgs])] at hc
    cases hparts : inputs.mapM (chainFlat1 (Kw.merge defaultChainKw kw)) with
    | error e => rw [hparts] at hc; cases hc
    | ok parts =>
        rw [hparts] at hc
        simp only [Except.ok.injEq] at hc
        subst hc
        simpa [Sig.linksOf] using noAdj_chainRed parts.flatten [] rfl

/-- Witness for C4: a concrete two-link construction satisfies the
no-adjacent-mergeable invariant. -/
theorem c4_chain_build_witness :
    noAdjMergeB (Sig.chain [Sig.item [.vint 0] [], Sig.attr [.vstr "x"] []]
      (Kw.merge defaultChainKw [])).linksOf = true :=
  c4_chain_build.2 [.s (.item [.vint 0] []), .s (.attr [.vstr "x"] [])] []
    (.chain [.item [.vint 0] [], .attr [.vstr "x"] []] (Kw.merge defaultChainKw []))
    rfl

/-- CLAIM C10 (corrected, amended form): for leaf (non-Chain) operands,
`x | y`, `x | [y]` and `[x] | y` return the merged leaf itself when the
operands merge, and a chain of exactly the two links otherwise — never a
Chain with fewer than two links.  The restriction to leaves is forced by
the counterexample: merging two chain operands returns a `Chain` that
can hold a single link. -/
theorem c10_or_never_one_link (x y : Sig) (hx : isChainB x = false)
    (hy : isChainB y = false) :
    (canMergeB x y = true →
      orSig x y = x.mergeSig y ∧ orSeq x [y] = x.mergeSig y ∧
      rorSeq [x] y = x.mergeSig y ∧ isChainB (x.mergeSig y) = false) ∧
    (canMergeB x y = false →
      orSig x y = .chain [x, y] (Kw.merge defaultChainKw []) ∧
      orSeq x [y] = .chain [x, y] (Kw.merge defaultChainKw []) ∧
      rorSeq [x] y = .chain [x, y] (Kw.merge defaultChainKw []) ∧
      (Sig.chain [x, y] (Kw.merge defaultChainKw [])).linksOf.length = 2) := by
  constructor
  · intro h
    have hpair : chainPair x y = [x.mergeSig y] := by simp [chainPair, h]
    have hchain : chainNewS [x, y] [] =
        .chain [x.mergeSig y] (Kw.merge defaultChainKw []) := by
      rw [chainNewS_pair hx hy, hpair]
    refine ⟨by simp [orSig, h], ?_, ?_, ?_⟩
    · show (match chainNewS [x, y] [] with
        | .chain [o] _ => o
        | c => c) = x.mergeSig y
      rw [hchain]
    · show (match chainNewS ([x] ++ [y]) [] with
        | .chain [o] _ => o
        | c => c) = x.mergeSig y
      rw [show [x] ++ [y] = [x, y] from rfl, hchain]
    · rw [isChainB_mergeSig (canMergeB_kind h)]
      exact hx
  · intro h
    have hpair : chainPair x y = [x, y] := by simp [chainPair, h]
    have hchain : chainNewS [x, y] [] =
        .chain [x, y] (Kw.merge defaultChainKw []) := by
      rw [chainNewS_pair hx hy, hpair]
    refine ⟨?_, ?_, ?_, rfl⟩
    · simp only [orSig, h, Bool.false_eq_true, if_neg, if_false]
      rw [hchain]
    · show (match chainNewS [x, y] [] with
        | .chain [o] _ => o
        | c => c) = .chain [x, y] (Kw.merge defaultChainKw [])
      rw [hchain]
    · show (match chainNewS ([x] ++ [y]) [] with
        | .chain [o] _ => o
        | c => c) = .chain [x, y] (Kw.merge defaultChainKw [])
      rw [show [x] ++ [y] = [x, y] from rfl, hchain]

/-- CLAIM C10, counterexample to the frozen statement:
`Chain() | Chain(Attr("p"))` (both with default options) merges the two
chains and returns a `Chain` holding exactly one link — the combining
operator can produce a one-link Chain at the public interface. -/
theorem c10_counterexample :
    orSig (.chain [] defaultChainKw) (.chain [.attr [.vstr "p"] []] defaultChainKw) =
      .chain [.attr [.vstr "p"] []] defaultChainKw ∧
    isChainB (.chain [.attr [.vstr "p"] []] defaultChainKw) = true ∧
    (Sig.chain [.attr [.vstr "p"] []] defaultChainKw).linksOf.length = 1 :=
  ⟨rfl, rfl, rfl⟩

/-- Witness for the amended C10: two mergeable `Item` leaves fuse into a
leaf through all three operator forms. -/
theorem c10_or_never_one_link_witness :
    orSig (.item [.vint 1] []) (.item [.vint 2] []) =
      (Sig.item [.vint 1] []).mergeSig (.item [.vint 2] []) ∧
    orSeq (.item [.vint 1] []) [.item [.vint 2] []] =
      (Sig.item [.vint 1] []).mergeSig (.item [.vint 2] []) ∧
    rorSeq [.item [.vint 1] []] (.item [.vint 2] []) =
      (Sig.item [.vint 1] []).mergeSig (.item [.vint 2] []) ∧
    isChainB ((Sig.item [.vint 1] []).mergeSig (.item [.vint 2] [])) = false :=
  (c10_or_never_one_link (.item [.vint 1] []) (.item [.vint 2] []) rfl rfl).1
    (by decide)

/-! Execution model: a heap of Python-like subject objects and the
get/set/delete semantics of the signature kinds. -/

/-- A mutable heap object: a `SimpleNamespace`-style attribute object, a
dict, or a list. -/
inductive HObj where
  | ns (fields : List (String × Val))
  | dct (entries : List (Val × Val))
  | lst (elems : List Val)

/-- The mutable store, addressed by `Val.vref`. -/
structure Heap where
  objs : List (Nat × HObj)

def Heap.getObj (h : Heap) (a : Nat) : Option HObj :=
  match h.objs.find? (fun p => p.1 == a) with
  | some p => some p.2
  | none => none

def Heap.setObj (h : Heap) (a : Nat) (o : HObj) : Heap :=
  ⟨h.objs.map fun p => if p.1 = a then (a, o) else p⟩

/-- Python list indexing: negative indices count from the end, anything
out of range is an `IndexError`. -/
def pyIndex (l : List Val) (i : Int) : Option Val :=
  if 0 ≤ i ∧ i < l.length then l[i.toNat]?
  else if -(l.length : Int) ≤ i ∧ i < 0 then l[(i + l.length).toNat]?
  else none

def pySetIndex (l : List Val) (i : Int) (v : Val) : Option (List Val) :=
  if 0 ≤ i ∧ i < l.length then some (l.set i.toNat v)
  else if -(l.length : Int) ≤ i ∧ i < 0 then some (l.set (i + l.length).toNat v)
  else none

def pyDelIndex (l : List Val) (i : Int) : Option (List Val) :=
  if 0 ≤ i ∧ i < l.length then some (l.eraseIdx i.toNat)
  else if -(l.length : Int) ≤ i ∧ i < 0 then some (l.eraseIdx (i + l.length).toNat)
  else none

def dctGet (es : List (Val × Val)) (k : Val) : Option Val :=
  (es.find? (fun p => p.1 == k)).map (·.2)

def dctSet (es : List (Val × Val)) (k v : Val) : List (Val × Val) :=
  if (es.find? (fun p => p.1 == k)).isSome then
    es.map fun p => if p.1 == k then (p.1, v) else p
  else es ++ [(k, v)]

def dctDel (es : List (Val × Val)) (k : Val) : Option (List (Val × Val)) :=
  if (es.find? (fun p => p.1 == k)).isSome then
    some (es.filter fun p => !(p.1 == k))
  else none

def nsSet (fs : List (String × Val)) (k : String) (v : Val) :
    List (String × Val) :=
  if (Kw.get fs k).isSome then fs.map fun p => if p.1 = k then (p.1, v) else p
  else fs ++ [(k, v)]

def nsDel (fs : List (String × Val)) (k : String) :
    Option (List (String × Val)) :=
  if (Kw.get fs k).isSome then some (fs.filter fun p => !(p.1 == k))
  else none

/-- `getattr(obj, name)`: only namespace heap objects carry the
user-chosen attribute names involved; everything else fails with
`AttributeError`, as the corresponding Python subjects do for those
names (dicts, lists and plain values have no such attributes). -/
def getattrV (h : Heap) (v : Val) (name : String) : Except Err Val :=
  match v with
  | .vref a =>
      match h.getObj a with
      | some (.ns fs) =>
          match Kw.get fs name with
          | some w => .ok w
          | none => .error .attrErr
      | _ => .error .attrErr
  | _ => .error .attrErr

def setattrV (h : Heap) (v : Val) (name : String) (w : Val) :
    Except Err Heap :=
  match v with
  | .vref a =>
      match h.getObj a with
      | some (.ns fs) => .ok (h.setObj a (.ns (nsSet fs name w)))
      | _ => .error .attrErr
  | _ => .error .attrErr

def delattrV (h : Heap) (v : Val) (name : String) : Except Err Heap :=
  match v with
  | .vref a =>
      match h.getObj a with
      | some (.ns fs) =>
          match nsDel fs name with
          | some fs2 => .ok (h.setObj a (.ns fs2))
          | none => .error .attrErr
      | _ => .error .attrErr
  | _ => .error .attrErr

/-- Start/stop/step slice components: `None` or an integer. -/
def pyOptInt : Val → Except Err (Option Int)
  | .vnone => .ok none
  | .vint i => .ok (some i)
  | _ => .error .typeErr

/-- Python's `slice.indices(len)` (the CPython clamping algorithm);
`ValueError` on a zero step. -/
def sliceIndices (start stop step : Val) (len : Nat) :
    Except Err (Int × Int × Int) := do
  let stO ← pyOptInt step
  let st := stO.getD 1
  if st = 0 then .error .valueErr
  else
    let lower : Int := if st < 0 then -1 else 0
    let upper : Int := if st < 0 then (len : Int) - 1 else (len : Int)
    let sO ← pyOptInt start
    let s : Int :=
      match sO with
      | none => if st < 0 then upper else lower
      | some i => if i < 0 then max (i + len) lower else min i upper
    let eO ← pyOptInt stop
    let e : Int :=
      match eO with
      | none => if st < 0 then lower else upper
      | some i => if i < 0 then max (i + len) lower else min i upper
    .ok (s, e, st)

/-- Number of elements selected by clamped slice indices. -/
def sliceCount (s e st : Int) : Nat :=
  if st > 0 then (((e - s) + st - 1) / st).toNat
  else (((e - s) + st + 1) / st).toNat

def sliceIdxList (s e st : Int) : List Int :=
  (List.range (sliceCount s e st)).map fun k => s + st * k

/-- Slicing a list never raises an out-of-range error; the result is a
fresh list value. -/
def pySliceGet (l : List Val) (a b c : Val) : Except Err Val := do
  let (s, e, st) ← sliceIndices a b c l.length
  .ok (.vlist ((sliceIdxList s e st).filterMap fun i => pyIndex l i))

/-- Slice assignment, modelled for the contiguous (step 1) case; the
extended-step form is outside the modelled domain. -/
def pySliceSet (l : List Val) (a b c : Val) (v : Val) :
    Except Err (List Val) := do
  let (s, e, st) ← sliceIndices a b c l.length
  if st = 1 then
    match v.tupList with
    | some xs => .ok (l.take s.toNat ++ xs ++ l.drop (max s e).toNat)
    | none => .error .typeErr
  else .error .typeErr

def pySliceDel (l : List Val) (a b c : Val) : Except Err (List Val) := do
  let (s, e, st) ← sliceIndices a b c l.length
  if st = 1 then .ok (l.take s.toNat ++ l.drop (max s e).toNat)
  else .error .typeErr

/-- `obj[key]`: dict lookup fails with `KeyError`, list indexing with
`IndexError`, unsubscriptable values with `TypeError`.  A slice key on a
dict is a `TypeError` (unhashable). -/
def getitemV (h : Heap) (v key : Val) : Except Err Val :=
  match v with
  | .vref a =>
      match h.getObj a with
      | some (.dct es) =>
          match key with
          | .vslc _ _ _ => .error .typeErr
          | _ =>
              match dctGet es key with
              | some w => .ok w
              | none => .error .keyErr
      | some (.lst es) =>
          match key with
          | .vint i =>
              match pyIndex es i with
              | some w => .ok w
              | none => .error .idxErr
          | .vslc a2 b2 c2 => pySliceGet es a2 b2 c2
          | _ => .error .typeErr
      | _ => .error .typeErr
  | _ => .error .typeErr

def setitemV (h : Heap) (v key w : Val) : Except Err Heap :=
  match v with
  | .vref a =>
      match h.getObj a with
      | some (.dct es) =>
          match key with
          | .vslc _ _ _ => .error .typeErr
          | _ => .ok (h.setObj a (.dct (dctSet es key w)))
      | some (.lst es) =>
          match key with
          | .vint i =>
              match pySetIndex es i w with
              | some es2 => .ok (h.setObj a (.lst es2))
              | none => .error .idxErr
          | .vslc a2 b2 c2 =>
              match pySliceSet es a2 b2 c2 w with
              | .ok es2 => .ok (h.setObj a (.lst es2))
              | .error e => .error e
          | _ => .error .typeErr
      | _ => .error .typeErr
  | _ => .error .typeErr

def delitemV (h : Heap) (v key : Val) : Except Err Heap :=
  match v with
  | .vref a =>
      match h.getObj a with
      | some (.dct es) =>
          match key with
          | .vslc _ _ _ => .error .typeErr
          | _ =>
              match dctDel es key with
              | some es2 => .ok (h.setObj a (.dct es2))
              | none => .error .keyErr
      | some (.lst es) =>
          match key with
          | .vint i =>
              match pyDelIndex es i with
              | some es2 => .ok (h.setObj a (.lst es2))
              | none => .error .idxErr
          | .vslc a2 b2 c2 =>
              match pySliceDel es a2 b2 c2 with
              | .ok es2 => .ok (h.setObj a (.lst es2))
              | .error e => .error e
          | _ => .error .typeErr
      | _ => .error .typeErr
  | _ => .error .typeErr

/-! The leaf traversal loops (`Attr.__call__` / `set` / `delete`,
`Item.__call__` / `set` / `delete`, and `Slice` via its `args`
property). -/

/-- One `getattr` step; a non-string name is the `TypeError` Python
raises at that point of the loop. -/
def getattrStep (h : Heap) (v : Val) (name : Val) : Except Err Val :=
  match name with
  | .vstr s => getattrV h v s
  | _ => .error .typeErr

/-- The `for arg in args: obj = getattr(obj, arg)` loop. -/
def attrRawGet (h : Heap) : Val → List Val → Except Err Val
  | v, [] => .ok v
  | v, n :: rest =>
      match getattrStep h v n with
      | .ok w => attrRawGet h w rest
      | .error e => .error e

/-- `Attr.__call__`: on `AttributeError`, return the `default` option if
present, else raise `AttributeSignatureError`. -/
def attrGet (args : List Val) (kw : Kw) (h : Heap) (v : Val) :
    Except Err Val :=
  match attrRawGet h v args with
  | .ok w => .ok w
  | .error .attrErr =>
      match Kw.get kw "default" with
      | some d => .ok d
      | none => .error .attrSigErr
  | .error e => .error e

/-- Navigate `args[:-1]`, then `setattr(obj, args[-1], val)`. -/
def attrSetL (h : Heap) (v : Val) : List Val → Val → Except Err Heap
  | [], _ => .error .idxErr
  | [n], w =>
      match n with
      | .vstr s => setattrV h v s w
      | _ => .error .typeErr
  | n :: rest, w =>
      match getattrStep h v n with
      | .ok v2 => attrSetL h v2 rest w
      | .error e => .error e

/-- `Attr.set`: any `AttributeError` becomes `AttributeSignatureError`;
the `default` option is never consulted. -/
def attrSet (args : List Val) (h : Heap) (v w : Val) : Except Err Heap :=
  match attrSetL h v args w with
  | .ok h2 => .ok h2
  | .error .attrErr => .error .attrSigErr
  | .error e => .error e

def attrDelL (h : Heap) (v : Val) : List Val → Except Err Heap
  | [] => .error .idxErr
  | [n] =>
      match n with
      | .vstr s => delattrV h v s
      | _ => .error .typeErr
  | n :: rest =>
      match getattrStep h v n with
      | .ok v2 => attrDelL h v2 rest
      | .error e => .error e

/-- `Attr.delete`: like `set`, never consults `default`. -/
def attrDel (args : List Val) (h : Heap) (v : Val) : Except Err Heap :=
  match attrDelL h v args with
  | .ok h2 => .ok h2
  | .error .attrErr => .error .attrSigErr
  | .error e => .error e

/-- The `for arg in args: obj = obj[arg]` loop. -/
def itemRawGet (h : Heap) : Val → List Val → Except Err Val
  | v, [] => .ok v
  | v, k :: rest =>
      match getitemV h v k with
      | .ok w => itemRawGet h w rest
      | .error e => .error e

/-- `Item.__call__`: on a `LookupError`, return the `default` if
present, else classify into `KeySignatureError` / `IndexSignatureError`
/ `LookupSignatureError`. -/
def itemGet (args : List Val) (kw : Kw) (h : Heap) (v : Val) :
    Except Err Val :=
  match itemRawGet h v args with
  | .ok w => .ok w
  | .error .keyErr =>
      match Kw.get kw "default" with
      | some d => .ok d
      | none => .error .keySigErr
  | .error .idxErr =>
      match Kw.get kw "default" with
      | some d => .ok d
      | none => .error .idxSigErr
  | .error .lookupErr =>
      match Kw.get kw "default" with
      | some d => .ok d
      | none => .error .lookupSigErr
  | .error e => .error e

def itemSetL (h : Heap) (v : Val) : List Val → Val → Except Err Heap
  | [], _ => .error .idxErr
  | [k], w => setitemV h v k w
  | k :: rest, w =>
      match getitemV h v k with
      | .ok v2 => itemSetL h v2 rest w
      | .error e => .error e

/-- `Item.set`: lookup failures are classified, `default` is never
consulted. -/
def itemSet (args : List Val) (h : Heap) (v w : Val) : Except Err Heap :=
  match itemSetL h v args w with
  | .ok h2 => .ok h2
  | .error .keyErr => .error .keySigErr
  | .error .idxErr => .error .idxSigErr
  | .error .lookupErr => .error .lookupSigErr
  | .error e => .error e

def itemDelL (h : Heap) (v : Val) : List Val → Except Err Heap
  | [] => .error .idxErr
  | [k] => delitemV h v k
  | k :: rest =>
      match getitemV h v k with
      | .ok v2 => itemDelL h v2 rest
      | .error e => .error e

def itemDel (args : List Val) (h : Heap) (v : Val) : Except Err Heap :=
  match itemDelL h v args with
  | .ok h2 => .ok h2
  | .error .keyErr => .error .keySigErr
  | .error .idxErr => .error .idxSigErr
  | .error .lookupErr => .error .lookupSigErr
  | .error e => .error e

/-- `slice(*a)` from a stored spec tuple (the `Slice.args` property):
one to three components, else `TypeError`. -/
def toSliceObj (v : Val) : Except Err Val :=
  match v.tupList with
  | some [a] => .ok (.vslc .vnone a .vnone)
  | some [a, b] => .ok (.vslc a b .vnone)
  | some [a, b, c] => .ok (.vslc a b c)
  | _ => .error .typeErr

/-- The `Slice.args` property applied to the stored tuples; evaluated
before the try block of the inherited `Item` loops. -/
def sliceKeys (args : List Val) : Except Err (List Val) :=
  args.mapM toSliceObj

def sliceGet (args : List Val) (kw : Kw) (h : Heap) (v : Val) :
    Except Err Val :=
  match sliceKeys args with
  | .ok keys => itemGet keys kw h v
  | .error e => .error e

def sliceSet (args : List Val) (h : Heap) (v w : Val) : Except Err Heap :=
  match sliceKeys args with
  | .ok keys => itemSet keys h v w
  | .error e => .error e

def sliceDel (args : List Val) (h : Heap) (v : Val) : Except Err Heap :=
  match sliceKeys args with
  | .ok keys => itemDel keys h v
  | .error e => .error e

/-! Chain compilation.  Modelled from the spec: `zana.common.pipeline`
and `cached_attr` come from the external `zana` package, not from this
repository.  Per the spec, the compiled `get` threads the subject
through each link's `get`; `set` / `delete` require the pipeline to be
tapped at the final position — the tap slice, evaluated against a probe
length equal to the chain's length, must resolve to
`(len - 1, len, 1)` — and then apply `get` across all links but the
last and the last link's `set` / `delete` on the navigated result. -/

/-- The pipeline's tap, normalized to a slice: an integer `t` becomes
`slice(t, (t+1) or None)`, a tuple becomes `slice(*t)`. -/
def tapToSlice : Val → Option Val
  | .vint t =>
      some (.vslc (.vint t) (if t + 1 = 0 then .vnone else .vint (t + 1)) .vnone)
  | v =>
      match v.tupList with
      | some [a] => some (.vslc .vnone a .vnone)
      | some [a, b] => some (.vslc a b .vnone)
      | some [a, b, c] => some (.vslc a b c)
      | _ => none

/-- The tap validation of `Chain.set` / `Chain.delete`: a falsy or
malformed tap, or tap indices different from `(len-1, len, 1)`, raise
the unsupported-mutation error at compile (first access) time. -/
def chainTapOk (kw : Kw) (ln : Nat) : Except Err Unit :=
  match tapToSlice ((Kw.get kw "tap").getD (.vint (-1))) with
  | none => .error .unsupportedMutation
  | some (.vslc a b c) =>
      match sliceIndices a b c ln with
      | .ok idx =>
          if idx = ((ln : Int) - 1, (ln : Int), 1) then .ok ()
          else .error .unsupportedMutation
      | .error e => .error e
  | some _ => .error .unsupportedMutation

mutual

/-- `Signature.get` (= `__call__` for the modelled kinds).  `Call` and
`Func` evaluation needs a callable, and the modelled heap holds none, so
they fail with `TypeError` as the corresponding call would. -/
def sigGet : Sig → Heap → Val → Except Err Val
  | .attr a kw, h, v => attrGet a kw h v
  | .item a kw, h, v => itemGet a kw h v
  | .slice a kw, h, v => sliceGet a kw h v
  | .call _ _, _, _ => .error .typeErr
  | .func _ _, _, _ => .error .typeErr
  | .chain links _, h, v => chainGetL links h v

/-- The compiled chain getter: thread the subject through each link. -/
def chainGetL : List Sig → Heap → Val → Except Err Val
  | [], _, v => .ok v
  | s :: rest, h, v =>
      match sigGet s h v with
      | .ok w => chainGetL rest h w
      | .error e => .error e

/-- `Signature.set`.  For a chain: `__args__[-1]` on an empty chain is an
`IndexError`; then the tap invariant is validated at compile time; then
the pipeline applies `get` across all links but the last and the last
link's `set` on the navigated result. -/
def sigSet : Sig → Heap → Val → Val → Except Err Heap
  | .attr a _, h, v, w => attrSet a h v w
  | .item a _, h, v, w => itemSet a h v w
  | .slice a _, h, v, w => sliceSet a h v w
  | .call _ _, _, _, _ => .error .notImplErr
  | .func _ _, _, _, _ => .error .notImplErr
  | .chain links kw, h, v, w =>
      if links.isEmpty then .error .idxErr
      else
        match chainTapOk kw links.length with
        | .ok _ => chainSetL links h v w
        | .error e => .error e

def chainSetL : List Sig → Heap → Val → Val → Except Err Heap
  | [], _, _, _ => .error .idxErr
  | [s], h, v, w => sigSet s h v w
  | s :: rest, h, v, w =>
      match sigGet s h v with
      | .ok v2 => chainSetL rest h v2 w
      | .error e => .error e

/-- `Signature.delete`, mirroring `set`. -/
def sigDel : Sig → Heap → Val → Except Err Heap
  | .attr a _, h, v => attrDel a h v
  | .item a _, h, v => itemDel a h v
  | .slice a _, h, v => sliceDel a h v
  | .call _ _, _, _ => .error .notImplErr
  | .func _ _, _, _ => .error .notImplErr
  | .chain links kw, h, v =>
      if links.isEmpty then .error .idxErr
      else
        match chainTapOk kw links.length with
        | .ok _ => chainDelL links h v
        | .error e => .error e

def chainDelL : List Sig → Heap → Val → Except Err Heap
  | [], _, _ => .error .idxErr
  | [s], h, v => sigDel s h v
  | s :: rest, h, v =>
      match sigGet s h v with
      | .ok v2 => chainDelL rest h v2
      | .error e => .error e

end

/-! Claim C2: end-to-end scenario A. -/

def c2sig : Sig := .attr [.vstr "foo", .vstr "bar", .vstr "x"] []

/-- `SimpleNamespace`-shaped subject: `obj.foo.bar.x == 1`. -/
def c2heapNS : Heap :=
  ⟨[(0, .ns [("foo", .vref 1)]), (1, .ns [("bar", .vref 2)]),
    (2, .ns [("x", .vint 1)])]⟩

def c2heapNS9 : Heap :=
  ⟨[(0, .ns [("foo", .vref 1)]), (1, .ns [("bar", .vref 2)]),
    (2, .ns [("x", .vint 9)])]⟩

def c2heapNSdel : Heap :=
  ⟨[(0, .ns [("foo", .vref 1)]), (1, .ns [("bar", .vref 2)]),
    (2, .ns [])]⟩

/-- The dict-shaped subject of the frozen claim:
`obj = {"foo": {"bar": SimpleNamespace(x=1)}}`. -/
def c2heapDict : Heap :=
  ⟨[(0, .dct [(.vstr "foo", .vref 1)]), (1, .dct [(.vstr "bar", .vref 2)]),
    (2, .ns [("x", .vint 1)])]⟩

/-- CLAIM C2, counterexample to the frozen statement: with the claim's
dict-shaped subject, `Attr("foo.bar.x").get(obj)` raises
`AttributeSignatureError` at the very first step (a dict has no
attribute `foo`), instead of returning 1; `set` fails the same way. -/
theorem c2_dict_subject_fails :
    newSig .ATTR [.v (.vstr "foo.bar.x")] [] = .ok c2sig ∧
    sigGet c2sig c2heapDict (.vref 0) = .error .attrSigErr ∧
    sigSet c2sig c2heapDict (.vref 0) (.vint 9) = .error .attrSigErr :=
  ⟨rfl, rfl, rfl⟩

/-- CLAIM C2 (corrected, amended form): with the subject built of
attribute objects (`obj = SimpleNamespace(foo=SimpleNamespace(bar=
SimpleNamespace(x=1)))`, as in the repository's own test),
`Attr("foo.bar.x").get(obj) == 1`; after `.set(obj, 9)` the getter
returns 9; after `.delete(obj)` the getter raises
`AttributeSignatureError`. -/
theorem c2_scenarioA_amended :
    sigGet c2sig c2heapNS (.vref 0) = .ok (.vint 1) ∧
    sigSet c2sig c2heapNS (.vref 0) (.vint 9) = .ok c2heapNS9 ∧
    sigGet c2sig c2heapNS9 (.vref 0) = .ok (.vint 9) ∧
    sigDel c2sig c2heapNS9 (.vref 0) = .ok c2heapNSdel ∧
    sigGet c2sig c2heapNSdel (.vref 0) = .error .attrSigErr :=
  ⟨rfl, rfl, rfl, rfl, rfl⟩

/-! Claim C5: `Item` error classification and default fallback. -/

/-- Native lookup-style failures (`KeyError`, `IndexError`, generic
`LookupError`). -/
def isLookupErr : Err → Bool
  | .keyErr => true
  | .idxErr => true
  | .lookupErr => true
  | _ => false

/-- The classification of `Item.__call__` / `set` / `delete`. -/
def classifyLookup : Err → Err
  | .keyErr => .keySigErr
  | .idxErr => .idxSigErr
  | _ => .lookupSigErr

def c5heapEmpty : Heap := ⟨[(0, .dct [])]⟩

/-- `[Mock, {"bar": {"y": [v]}}]`. -/
def c5heap : Heap :=
  ⟨[(0, .lst [.vobj 0, .vref 1]), (1, .dct [(.vstr "bar", .vref 2)]),
    (2, .dct [(.vstr "y", .vref 3)]), (3, .lst [.vobj 1])]⟩

/-- CLAIM C5 (confirmed): sequential subscript lookup classifies a
native lookup failure into `KeySignatureError` / `IndexSignatureError` /
`LookupSignatureError` unless a `default` option is present, in which
case the default is returned; concretely
`Item("missing-key", default=7).get({}) == 7`, the same call without
`default` raises `KeySignatureError`, and `Item(-1, "bar", "y", 2)` on
`[Mock, {"bar": {"y": [v]}}]` raises `IndexSignatureError`. -/
theorem c5_item_classification :
    (∀ (args : List Val) (kw : Kw) (h : Heap) (v : Val) (e : Err),
      itemRawGet h v args = .error e → isLookupErr e = true →
        (Kw.get kw "default" = none →
          itemGet args kw h v = .error (classifyLookup e)) ∧
        (∀ d, Kw.get kw "default" = some d → itemGet args kw h v = .ok d)) ∧
    itemGet [.vstr "missing-key"] [("default", .vint 7)] c5heapEmpty (.vref 0) =
      .ok (.vint 7) ∧
    itemGet [.vstr "missing-key"] [] c5heapEmpty (.vref 0) = .error .keySigErr ∧
    itemGet [.vint (-1), .vstr "bar", .vstr "y", .vint 2] [] c5heap (.vref 0) =
      .error .idxSigErr := by
  refine ⟨?_, rfl, rfl, rfl⟩
  intro args kw h v e hraw hlk
  constructor
  · intro hd
    cases e <;> simp_all [isLookupErr, itemGet, classifyLookup]
  · intro d hd
    cases e <;> simp_all [isLookupErr, itemGet]

/-- Witness for C5's general classification clause at a concrete
`KeyError`. -/
theorem c5_item_classification_witness :
    itemGet [.vstr "nope"] [] c5heapEmpty (.vref 0) =
      .error (classifyLookup .keyErr) :=
  (c5_item_classification.1 [.vstr "nope"] [] c5heapEmpty (.vref 0) .keyErr
    rfl rfl).1 rfl

/-! Claim C7: default swallowing. -/

def c7heap : Heap := ⟨[(0, .ns [])]⟩

/-- CLAIM C7, counterexample to the frozen statement: for
`Attr("a.b", default=7)` over an object with no attribute `a`, the
getter swallows the failure and returns 7, but `set` and `delete` raise
`AttributeSignatureError` even though the `default` option is present —
default swallowing does not extend to set/delete. -/
theorem c7_set_ignores_default :
    sigGet (.attr [.vstr "a", .vstr "b"] [("default", .vint 7)]) c7heap
      (.vref 0) = .ok (.vint 7) ∧
    sigSet (.attr [.vstr "a", .vstr "b"] [("default", .vint 7)]) c7heap
      (.vref 0) (.vint 9) = .error .attrSigErr ∧
    sigDel (.attr [.vstr "a", .vstr "b"] [("default", .vint 7)]) c7heap
      (.vref 0) = .error .attrSigErr :=
  ⟨rfl, rfl, rfl⟩

/-- CLAIM C7 (corrected, amended form): for every leaf kind with a
`default` option, the *get* operation swallows the kind's classified
traversal failure and returns the default (Attr on `AttributeError`;
Item and Slice on any `LookupError`); `set` and `delete` never consult
the options at all and propagate the classified error. -/
theorem c7_default_swallow_get_only :
    (∀ (args : List Val) (kw : Kw) (h : Heap) (v d : Val),
      Kw.get kw "default" = some d → attrRawGet h v args = .error .attrErr →
        attrGet args kw h v = .ok d) ∧
    (∀ (args : List Val) (kw : Kw) (h : Heap) (v d : Val) (e : Err),
      Kw.get kw "default" = some d → itemRawGet h v args = .error e →
        isLookupErr e = true → itemGet args kw h v = .ok d) ∧
    (∀ (args keys : List Val) (kw : Kw) (h : Heap) (v d : Val) (e : Err),
      Kw.get kw "default" = some d → sliceKeys args = .ok keys →
        itemRawGet h v keys = .error e → isLookupErr e = true →
        sliceGet args kw h v = .ok d) ∧
    (∀ (args : List Val) (kw : Kw) (h : Heap) (v w : Val),
      sigSet (.attr args kw) h v w = attrSet args h v w ∧
      sigDel (.attr args kw) h v = attrDel args h v ∧
      sigSet (.item args kw) h v w = itemSet args h v w ∧
      sigDel (.item args kw) h v = itemDel args h v) ∧
    (∀ (args : List Val) (h : Heap) (v w : Val),
      attrSetL h v args w = .error .attrErr →
        attrSet args h v w = .error .attrSigErr) := by
  refine ⟨?_, ?_, ?_, ?_, ?_⟩
  · intro args kw h v d hd hraw
    simp [attrGet, hraw, hd]
  · intro args kw h v d e hd hraw hlk
    cases e <;> simp_all [isLookupErr, itemGet]
  · intro args keys kw h v d e hd hkeys hraw hlk
    cases e <;> simp_all [isLookupErr, sliceGet, itemGet]
  · intro args kw h v w
    exact ⟨rfl, rfl, rfl, rfl⟩
  · intro args h v w hfail
    simp [attrSet, hfail]

/-- Witness for the amended C7 at a concrete failing `Attr` getter. -/
theorem c7_default_swallow_get_only_witness :
    attrGet [.vstr "a", .vstr "b"] [("default", .vint 7)] c7heap (.vref 0) =
      .ok (.vint 7) :=
  c7_default_swallow_get_only.1 [.vstr "a", .vstr "b"]
    [("default", .vint 7)] c7heap (.vref 0) (.vint 7) rfl rfl

/-! Claim C6: chain set/delete compilation and the tap invariant. -/

theorem sliceIndices_neg_one (ln : Nat) (hln : 1 ≤ ln) :
    sliceIndices (.vint (-1)) .vnone .vnone ln =
      .ok ((ln : Int) - 1, (ln : Int), 1) := by
  simp only [sliceIndices, pyOptInt, Option.getD, Bind.bind, Except.bind]
  norm_num
  omega

/-- The default tap (-1) satisfies the positional invariant for every
non-empty chain. -/
theorem chainTapOk_default (kw : Kw) (ln : Nat) (hln : 1 ≤ ln)
    (htap : Kw.get kw "tap" = some (.vint (-1))) :
    chainTapOk kw ln = .ok () := by
  simp only [chainTapOk, htap, Option.getD, tapToSlice]
  norm_num
  rw [sliceIndices_neg_one ln hln]
  simp

/-- For an integer tap the validation is exactly the comparison of the
clamped tap-slice indices with `(len-1, len, 1)`. -/
theorem chainTapOk_int (kw : Kw) (ln : Nat) (t : Int)
    (htap : Kw.get kw "tap" = some (.vint t)) :
    chainTapOk kw ln =
      (match sliceIndices (.vint t)
          (if t + 1 = 0 then .vnone else .vint (t + 1)) .vnone ln with
       | .ok idx =>
          if idx = ((ln : Int) - 1, (ln : Int), 1) then .ok ()
          else .error .unsupportedMutation
       | .error e => .error e) := by
  simp [chainTapOk, htap, tapToSlice]

theorem chainSetL_decomp (h : Heap) (w : Val) :
    ∀ (front : List Sig) (last : Sig) (v : Val),
      chainSetL (front ++ [last]) h v w =
        (match chainGetL front h v with
         | .ok nav => sigSet last h nav w
         | .error e => .error e) := by
  intro front
  induction front with
  | nil => intro last v; rfl
  | cons s rest ih =>
      intro last v
      obtain ⟨a, l, hal⟩ : ∃ a l, rest ++ [last] = a :: l := by
        cases hq : rest ++ [last] with
        | nil => simp at hq
        | cons a l => exact ⟨a, l, rfl⟩
      rw [List.cons_append, hal]
      show (match sigGet s h v with
        | .ok v2 => chainSetL (a :: l) h v2 w
        | .error e => .error e) =
        (match chainGetL (s :: rest) h v with
         | .ok nav => sigSet last h nav w
         | .error e => .error e)
      rw [← hal]
      show (match sigGet s h v with
        | .ok v2 => chainSetL (rest ++ [last]) h v2 w
        | .error e => .error e) = _
      cases hs : sigGet s h v with
      | ok v2 =>
          simp only []
          rw [ih last v2]
          show _ = (match chainGetL (s :: rest) h v with
            | .ok nav => sigSet last h nav w
            | .error e => .error e)
          have : chainGetL (s :: rest) h v = chainGetL rest h v2 := by
            show (match sigGet s h v with
              | .ok w2 => chainGetL rest h w2
              | .error e => .error e) = chainGetL rest h v2
            rw [hs]
          rw [this]
      | error e =>
          show Except.error e = _
          have : chainGetL (s :: rest) h v = .error e := by
            show (match sigGet s h v with
              | .ok w2 => chainGetL rest h w2
              | .error e2 => .error e2) = .error e
            rw [hs]
          rw [this]

theorem chainDelL_decomp (h : Heap) :
    ∀ (front : List Sig) (last : Sig) (v : Val),
      chainDelL (front ++ [last]) h v =
        (match chainGetL front h v with
         | .ok nav => sigDel last h nav
         | .error e => .error e) := by
  intro front
  induction front with
  | nil => intro last v; rfl
  | cons s rest ih =>
      intro last v
      obtain ⟨a, l, hal⟩ : ∃ a l, rest ++ [last] = a :: l := by
        cases hq : rest ++ [last] with
        | nil => simp at hq
        | cons a l => exact ⟨a, l, rfl⟩
      rw [List.cons_append, hal]
      show (match sigGet s h v with
        | .ok v2 => chainDelL (a :: l) h v2
        | .error e => .error e) =
        (match chainGetL (s :: rest) h v with
         | .ok nav => sigDel last h nav
         | .error e => .error e)
      rw [← hal]
      show (match sigGet s h v with
        | .ok v2 => chainDelL (rest ++ [last]) h v2
        | .error e => .error e) = _
      cases hs : sigGet s h v with
      | ok v2 =>
          simp only []
          rw [ih last v2]
          have : chainGetL (s :: rest) h v = chainGetL rest h v2 := by
            show (match sigGet s h v with
              | .ok w2 => chainGetL rest h w2
              | .error e => .error e) = chainGetL rest h v2
            rw [hs]
          rw [this]
      | error e =>
          have : chainGetL (s :: rest) h v = .error e := by
            show (match sigGet s h v with
              | .ok w2 => chainGetL rest h w2
              | .error e2 => .error e2) = .error e
            rw [hs]
          rw [this]

/-- CLAIM C6 (confirmed; the pipeline helper is external to the
repository and is modelled from the spec): the compiled chain `set` and
`delete` apply `get` across all links except the last and then invoke
the last link's `set`/`delete` on the navigated result; the default tap
(-1) always satisfies the positional invariant for non-empty chains,
an integer tap is validated by comparing its clamped slice indices
against `(len-1, len, 1)`, and a failing invariant surfaces as the
unsupported-mutation error when the setter/deleter is compiled (first
access), independent of the subject — so not at each call.  The last
conjunct shows the invariant failing concretely for `tap=0` on a
three-link chain. -/
theorem c6_chain_set_delete :
    (∀ (kw : Kw) (ln : Nat), 1 ≤ ln → Kw.get kw "tap" = some (.vint (-1)) →
      chainTapOk kw ln = .ok ()) ∧
    (∀ (links : List Sig) (kw : Kw) (h : Heap) (v w : Val),
      links ≠ [] → chainTapOk kw links.length = .error .unsupportedMutation →
        sigSet (.chain links kw) h v w = .error .unsupportedMutation ∧
        sigDel (.chain links kw) h v = .error .unsupportedMutation) ∧
    (∀ (front : List Sig) (last : Sig) (kw : Kw) (h : Heap) (v w : Val),
      chainTapOk kw (front ++ [last]).length = .ok () →
        sigSet (.chain (front ++ [last]) kw) h v w =
          (match chainGetL front h v with
           | .ok nav => sigSet last h nav w
           | .error e => .error e) ∧
        sigDel (.chain (front ++ [last]) kw) h v =
          (match chainGetL front h v with
           | .ok nav => sigDel last h nav
           | .error e => .error e)) ∧
    chainTapOk [("args", .vnil), ("kwargs", .vdnil), ("tap", .vint 0)] 3 =
      .error .unsupportedMutation := by
  refine ⟨chainTapOk_default, ?_, ?_, rfl⟩
  · intro links kw h v w hne htap
    constructor
    · show (if links.isEmpty then Except.error Err.idxErr
        else match chainTapOk kw links.length with
          | .ok _ => chainSetL links h v w
          | .error e => .error e) = .error .unsupportedMutation
      rw [if_neg (by simpa using hne), htap]
    · show (if links.isEmpty then Except.error Err.idxErr
        else match chainTapOk kw links.length with
          | .ok _ => chainDelL links h v
          | .error e => .error e) = .error .unsupportedMutation
      rw [if_neg (by simpa using hne), htap]
  · intro front last kw h v w htap
    constructor
    · show (if (front ++ [last]).isEmpty then Except.error Err.idxErr
        else match chainTapOk kw (front ++ [last]).length with
          | .ok _ => chainSetL (front ++ [last]) h v w
          | .error e => .error e) = _
      rw [if_neg (by simp), htap]
      exact chainSetL_decomp h w front last v
    · show (if (front ++ [last]).isEmpty then Except.error Err.idxErr
        else match chainTapOk kw (front ++ [last]).length with
          | .ok _ => chainDelL (front ++ [last]) h v
          | .error e => .error e) = _
      rw [if_neg (by simp), htap]
      exact chainDelL_decomp h front last v

/-- Witness for C6: `Chain(Item(1), Attr("x"))` with default options
over `[w, ns(x=5)]` compiles and sets through the navigated prefix. -/
theorem c6_chain_set_delete_witness :
    sigSet (.chain ([.item [.vint 1] []] ++ [.attr [.vstr "x"] []])
        defaultChainKw) ⟨[(0, .lst [.vobj 0, .vref 1]), (1, .ns [("x", .vint 5)])]⟩
        (.vref 0) (.vint 9) =
      (match chainGetL [.item [.vint 1] []]
          ⟨[(0, .lst [.vobj 0, .vref 1]), (1, .ns [("x", .vint 5)])]⟩ (.vref 0) with
       | .ok nav =>
          sigSet (.attr [.vstr "x"] [])
            ⟨[(0, .lst [.vobj 0, .vref 1]), (1, .ns [("x", .vint 5)])]⟩ nav (.vint 9)
       | .error e => .error e) :=
  (c6_chain_set_delete.2.2.1 [.item [.vint 1] []] (.attr [.vstr "x"] [])
    defaultChainKw ⟨[(0, .lst [.vobj 0, .vref 1]), (1, .ns [("x", .vint 5)])]⟩
    (.vref 0) (.vint 9) rfl).1

/-! Claim C8: Slice argument normalization. -/

/-- CLAIM C8, counterexample to the frozen statement: an integer index
is not accepted by `Slice` in `canvas.py` — `Slice(2)` runs
`tuple(2)` inside `_slice_tuple`, which raises `TypeError`.  (The
`_to_slice` helper of `_canvas.py` that would accept integers is dead
code: `_canvas.Signature.__new__` never calls `_parse_params_`.) -/
theorem c8_int_rejected :
    newSig .SLICE [.v (.vint 2)] [] = .error .typeErr := rfl

/-- CLAIM C8 (corrected, amended form): at `Slice` construction a native
slice literal and its `(start, stop, step)` 3-tuple are accepted and
normalized identically — both store the hashable tuple form and produce
the same (hence Python-equal) signature; every stored slice spec of a
constructed `Slice` is a tuple value (so the signature is hashable);
integer indices are not accepted and raise `TypeError`. -/
theorem c8_slice_normalization_amended :
    (∀ (a b c : Val) (kw : Kw),
      newSig .SLICE [.v (.vslc a b c)] kw =
        newSig .SLICE [.v (.vlist [a, b, c])] kw ∧
      newSig .SLICE [.v (.vslc a b c)] kw =
        .ok (.slice [.vlist [a, b, c]] (Kw.merge [] kw))) ∧
    (∀ (inputs : List Inp) (kw : Kw) (s : Sig),
      newSig .SLICE inputs kw = .ok s → ∀ v ∈ s.valArgs, isSpine v = true) ∧
    (∀ (i : Int) (kw : Kw),
      newSig .SLICE [.v (.vint i)] kw = .error .typeErr) := by
  refine ⟨fun a b c kw => ⟨rfl, rfl⟩, ?_, fun i kw => rfl⟩
  intro inputs kw s hc
  simp only [newSig] at hc
  by_cases hlen : inputs.length < minArgs .SLICE
  · rw [if_pos hlen] at hc; cases hc
  · rw [if_neg hlen] at hc
    cases hvs : asVals inputs with
    | error e => rw [hvs] at hc; cases hc
    | ok vs =>
        rw [hvs] at hc
        simp only [] at hc
        cases hts : vs.mapM sliceTuple with
        | error e => rw [hts] at hc; cases hc
        | ok ts =>
            rw [hts] at hc
            simp only [Except.ok.injEq] at hc
            subst hc
            intro v hv
            obtain ⟨u, _, hu⟩ :=
              mapM_ok_mem hts v (by simpa [Sig.valArgs] using hv)
            exact sliceTuple_spine hu

/-- Witness for the amended C8 at a concrete slice spec. -/
theorem c8_slice_normalization_witness :
    isSpine (.vlist [.vint 0, .vint 3, .vnone]) = true :=
  c8_slice_normalization_amended.2.1 [.v (.vslc (.vint 0) (.vint 3) .vnone)]
    [] (.slice [.vlist [.vint 0, .vint 3, .vnone]] (Kw.merge [] [])) rfl
    (.vlist [.vint 0, .vint 3, .vnone]) (by simp [Sig.valArgs])

end Canvas

namespace XCanvas

/-!
Model of the `Operation` node of `src/zana/django/_canvas.py` (the only
module defining `Operation`).  Note two source facts this model
reflects:
* `_canvas.Signature.__new__` performs arity/required-option checks and
  default merging inline and never calls `_parse_params_` (the call is
  commented out), so `Operation._parse_params_` — the method holding the
  registry validation — is dead code;
* the dead validator itself tests `args[0]`, which is an operand
  signature, not the `operator` option.
-/

/-- The keys of `ALL_OPERATORS`: the value-side names of
`_builtin_operator_names` (the built-in registry; the user registry
starts empty). -/
def ALL_OPERATORS : List String :=
  ["lt", "le", "eq", "ne", "ge", "gt", "not_", "abs", "add", "and_",
   "floordiv", "index", "inv", "invert", "lshift", "mod", "mul", "matmul",
   "neg", "or_", "pos", "pow", "rshift", "sub", "truediv", "xor", "concat",
   "contains", "delitem", "getitem", "setitem", "iadd", "iand", "iconcat",
   "ifloordiv", "ilshift", "imod", "imul", "imatmul", "ior", "ipow",
   "irshift", "isub", "itruediv", "ixor"]

/-- The `_notset` sentinel of `_canvas.py` (an opaque object). -/
def notset : Canvas.Val := .vobj 0

/-- `_canvas.Signature.__new__` specialised to `Operation`'s class
policy (`min_args=1`, required option `operator`, default
`{operator: _notset}`): arity check, required-option check, default
merge — and no registry validation, since `_parse_params_` is never
invoked. -/
def operationNew (args : List Canvas.Val) (kw : Canvas.Kw) :
    Except Canvas.Err (List Canvas.Val × Canvas.Kw) :=
  if args.length < 1 then .error .typeErr
  else if (Canvas.Kw.get kw "operator").isNone then .error .typeErr
  else .ok (args, Canvas.Kw.merge [("operator", notset)] kw)

/-- The dead validator `Operation._parse_params_` would raise
`ValueError` when `args[0]` — an operand, not the operator name — is
missing from the registry. -/
def operationParseParamsCheck (args : List Canvas.Val) :
    Except Canvas.Err Unit :=
  match args with
  | .vstr name :: _ =>
      if name ∈ ALL_OPERATORS then .ok () else .error .valueErr
  | _ => .error .valueErr

/-- The `Operation.operator` property: `ALL_OPERATORS[name]` at
evaluation time; an unknown name is a `KeyError` there. -/
def operatorLookup (kw : Canvas.Kw) : Except Canvas.Err String :=
  match Canvas.Kw.get kw "operator" with
  | some (.vstr name) =>
      if name ∈ ALL_OPERATORS then .ok name else .error .keyErr
  | _ => .error .keyErr

/-- CLAIM C9 (code bug): constructing an `Operation` with the unknown
operator name "nope" succeeds — the construction-time registry
validation the spec describes lives in `Operation._parse_params_`, which
`_canvas.Signature.__new__` never calls — and the failure surfaces only
at evaluation time, when the `operator` property's registry lookup
raises `KeyError`. -/
theorem c9_operation_validation_dead :
    ALL_OPERATORS.contains "nope" = false ∧
    operationNew [.vobj 1] [("operator", .vstr "nope")] =
      .ok ([.vobj 1],
        Canvas.Kw.merge [("operator", notset)] [("operator", .vstr "nope")]) ∧
    operatorLookup
      (Canvas.Kw.merge [("operator", notset)] [("operator", .vstr "nope")]) =
      .error .keyErr :=
  ⟨by decide, rfl, rfl⟩

end XCanvas
